import Mathlib

/-!
Verification of the behavioral feature-extraction and evaluation pipeline of the
barcode-reader repository (StarCraft: Brood War player fingerprinting).

The Python code is shallowly embedded: Python dicts (which are insertion-ordered
with key-update-in-place semantics) are modelled as association lists built with
`dictSet`; `collections.Counter` is modelled as an association list of key/count
pairs (`Counter`); Python floats are modelled as rationals; fallible operations
(`statistics.mean` of an empty list, unguarded `/` that can raise
`ZeroDivisionError`, `list.index`) are modelled in the `Except String` monad.

Python's `Counter.most_common(n)` uses `heapq.nlargest`, which is documented and
implemented to be equivalent to a stable descending sort by count followed by
`take n` (ties are won by the element that entered the counter earlier).  A
stable sort is extensionally unique, so it is modelled by Mathlib's
`List.insertionSort` (which is stable) with the relation "has a count greater
than or equal to".
-/

namespace Barcode

/-! ### Python dict / Counter model -/

/-- Lookup in an insertion-ordered association list (Python `d[k]` / `d.get(k)`). -/
def alistGet? {α β : Type} [DecidableEq α] : List (α × β) → α → Option β
  | [], _ => none
  | kv :: rest, key => if kv.1 = key then some kv.2 else alistGet? rest key

/-- Python dict assignment `d[key] = val`: update in place if the key exists,
append at the end otherwise. -/
def dictSet {α β : Type} [DecidableEq α] : List (α × β) → α → β → List (α × β)
  | [], key, val => [(key, val)]
  | kv :: rest, key, val =>
    if kv.1 = key then (key, val) :: rest else kv :: dictSet rest key val

/-- The key list of an association list, in insertion order. -/
def keyList {α β : Type} (l : List (α × β)) : List α := l.map Prod.fst

/-- `collections.Counter` keyed by `α`: insertion-ordered key/count pairs. -/
abbrev Counter (α : Type) := List (α × ℕ)

/-- `c[k]` for a Counter: missing keys count 0. -/
def cntGet {α : Type} [DecidableEq α] (c : Counter α) (k : α) : ℕ :=
  (alistGet? c k).getD 0

/-- `Counter.__iadd__`: add the counts of `other` into `self` (iterating `other`
in order, so `other`'s new keys are appended in their order), then
`_keep_positive` drops non-positive entries. -/
def counterAdd {α : Type} [DecidableEq α] (self other : Counter α) : Counter α :=
  (other.foldl (fun acc kv => dictSet acc kv.1 (cntGet acc kv.1 + kv.2)) self).filter
    (fun kv => 0 < kv.2)

/-- `c[k] += 1` on a Counter. -/
def counterIncr {α : Type} [DecidableEq α] (c : Counter α) (k : α) : Counter α :=
  dictSet c k (cntGet c k + 1)

/-- Build a Counter from a list (`Counter(xs)` / a counting loop). -/
def counterOfList {α : Type} [DecidableEq α] (l : List α) : Counter α :=
  l.foldl counterIncr []

/-- Descending-count order used by `most_common`: `a` may come before `b`
iff `a`'s count is at least `b`'s. -/
def countGe {α : Type} (a b : α × ℕ) : Prop := b.2 ≤ a.2

instance {α : Type} : DecidableRel (@countGe α) :=
  fun a b => inferInstanceAs (Decidable (b.2 ≤ a.2))

instance {α : Type} : IsTotal (α × ℕ) countGe := ⟨fun a b => Nat.le_total b.2 a.2⟩

instance {α : Type} : IsTrans (α × ℕ) countGe := ⟨fun _ _ _ h1 h2 => le_trans h2 h1⟩

/-- `Counter.most_common(n)`: stable descending sort by count, first `n` items. -/
def mostCommon {α : Type} [DecidableEq α] (c : Counter α) (n : ℕ) : List (α × ℕ) :=
  (List.insertionSort countGe c).take n

/-- `Counter.most_common()` with no argument: the full stable descending sort. -/
def mostCommonAll {α : Type} [DecidableEq α] (c : Counter α) : List (α × ℕ) :=
  List.insertionSort countGe c

/-! ### Command records (screp JSON commands, as consumed by features.py) -/

/-- One parsed command.  Only the fields read by the feature pipeline are
modelled; optional JSON fields are `Option`s (`c.get(...)` semantics). -/
structure Cmd where
  typeName : String
  frame : ℤ
  pos : Option (ℤ × ℤ)
  group : Option ℤ
  hotkeyTypeName : Option String
  unitTagsLen : Option ℕ
  queued : Bool
deriving DecidableEq, Repr

/-- Convenience constructor: a command with only a type name and a frame. -/
def mkCmd (t : String) (f : ℤ) : Cmd :=
  ⟨t, f, none, none, none, none, false⟩

/-! ### features.py constants -/

def FRAME_MS : ℚ := 42

def FRAMES_PER_MINUTE : ℚ := (1000 / FRAME_MS) * 60

def MIN_GAME_MINUTES : ℚ := 4

def MIN_COMMANDS : ℕ := 100

/-- The fixed action-name → category-token lookup table. -/
def ACTION_CATEGORIES : List (String × String) :=
  [("Hotkey", "H"), ("Select", "S"), ("Select Add", "S+"), ("Select Remove", "S-"),
   ("Right Click", "R"), ("Hold Position", "HP"), ("Stop", "ST"), ("Return Cargo", "RC"),
   ("Targeted Order", "TO"),
   ("Stim", "Abl"), ("Burrow", "Abl"), ("Unburrow", "Abl"),
   ("Siege", "Abl"), ("Unsiege", "Abl"),
   ("Cloack", "Abl"), ("Decloack", "Abl"),
   ("Merge Archon", "Abl"), ("Merge Dark Archon", "Abl"),
   ("Lift Off", "Abl"), ("Land", "Abl"),
   ("Train", "Prod"), ("Unit Morph", "Prod"), ("Build", "Bld"),
   ("Building Morph", "Prod"), ("Train Fighter", "Prod"),
   ("Upgrade", "Upg"), ("Tech", "Tech"),
   ("Unload", "Unld"), ("Unload All", "UnldA"),
   ("Cancel Train", "Can"), ("Cancel Build", "Can"), ("Cancel Morph", "Can"),
   ("Cancel Upgrade", "Can"), ("Cancel Tech", "Can"), ("Cancel Addon", "Can")]

/-- `ACTION_CATEGORIES.get(name, "O")`. -/
def categorize (c : Cmd) : String :=
  (alistGet? ACTION_CATEGORIES c.typeName).getD "O"

/-- `GLOBAL_NGRAM_TOP_N` per-channel top-N table. -/
def GLOBAL_NGRAM_TOP_N : List (String × ℕ) :=
  [("ng2", 25), ("ng3", 20), ("ng4", 15),
   ("hkg2", 15), ("hkg3", 10),
   ("ehkg2", 10), ("ehkg3", 8)]

/-- `GLOBAL_NGRAM_TOP_N.get(channel, 10)`. -/
def topNFor (channel : String) : ℕ :=
  (alistGet? GLOBAL_NGRAM_TOP_N channel).getD 10

/-! ### trim_at_leave -/

/-- `trim_at_leave(player_cmds, all_cmds, game_frames)`: find the first
"Leave Game" command in `all_cmds` (list order); if found, keep only the
player's commands whose frame is `≤` that frame and cap the duration there. -/
def trim_at_leave (player_cmds all_cmds : List Cmd) (game_frames : ℤ) :
    List Cmd × ℤ :=
  match all_cmds.find? (fun c => c.typeName == "Leave Game") with
  | none => (player_cmds, game_frames)
  | some lc =>
    (player_cmds.filter (fun c => c.frame ≤ lc.frame), min game_frames lc.frame)

/-! ### collapse_consecutive_prod and n-gram extraction -/

/-- Tail worker for `collapse_consecutive_prod`; `prev` is the last token
already emitted (`collapsed[-1]` in the Python loop). -/
def collapseAux (prev : String) : List String → List String
  | [] => []
  | c :: cs =>
    if c = "Prod" ∧ prev = "Prod" then collapseAux prev cs
    else c :: collapseAux c cs

/-- `collapse_consecutive_prod`: drop every "Prod" token that immediately
follows an emitted "Prod" token. -/
def collapse_consecutive_prod : List String → List String
  | [] => []
  | c :: cs => c :: collapseAux c cs

/-- The list of n-gram strings of a token list: windows `l[i:i+n]` for
`i` in `range(len(l) - n + 1)`, joined with an underscore. -/
def ngramWindows (l : List String) (n : ℕ) : List String :=
  (List.range (l.length + 1 - n)).map
    (fun i => String.intercalate "_" ((l.drop i).take n))

/-- `extract_abstracted_ngrams(commands, n)`. -/
def extract_abstracted_ngrams (commands : List Cmd) (n : ℕ) : Counter String :=
  counterOfList (ngramWindows (collapse_consecutive_prod (commands.map categorize)) n)

/-! ### Claim C3: trim_at_leave -/

theorem find?_first {α : Type} (p : α → Bool) (lc : α) (post : List α)
    (hlc : p lc = true) :
    ∀ pre : List α, (∀ c ∈ pre, ¬ p c = true) →
      (pre ++ lc :: post).find? p = some lc := by
  intro pre
  induction pre with
  | nil => intro _; simp [List.find?_cons_of_pos, hlc]
  | cons a as ih =>
    intro h
    have ha : ¬ p a = true := h a (by simp)
    have has : ∀ c ∈ as, ¬ p c = true := fun c hc => h c (by simp [hc])
    simp only [List.cons_append, List.find?_cons_of_neg _ ha]
    exact ih has

/-- C3 counterexample: with a "Leave Game" event at frame 500 and a player
command at exactly frame 500, `trim_at_leave` KEEPS the frame-500 command
(the code filters `frame <= leave_frame`), whereas the claim states commands
"at or after" the leave frame are discarded — which would give `[]`. -/
theorem trim_at_leave_keeps_command_at_leave_frame :
    (trim_at_leave [mkCmd "Right Click" 500] [mkCmd "Leave Game" 500] 1000) =
      ([mkCmd "Right Click" 500], 500) := by
  decide

/-- C3 (amended): if `all_cmds` contains no "Leave Game" event, `trim_at_leave`
is the identity transform; if `lc` is the first "Leave Game" event in list
order, the player's commands STRICTLY AFTER `lc`'s frame are discarded (those
at the frame itself are kept) and the effective duration is the minimum of the
nominal duration and that frame. -/
theorem trim_at_leave_correct (player_cmds all_cmds : List Cmd) (gf : ℤ) :
    ((∀ c ∈ all_cmds, c.typeName ≠ "Leave Game") →
      trim_at_leave player_cmds all_cmds gf = (player_cmds, gf)) ∧
    (∀ pre lc post, all_cmds = pre ++ lc :: post → lc.typeName = "Leave Game" →
      (∀ c ∈ pre, c.typeName ≠ "Leave Game") →
      trim_at_leave player_cmds all_cmds gf =
        (player_cmds.filter (fun c => c.frame ≤ lc.frame), min gf lc.frame)) := by
  constructor
  · intro h
    have hnone : all_cmds.find? (fun c => c.typeName == "Leave Game") = none := by
      rw [List.find?_eq_none]
      intro x hx
      simpa using h x hx
    simp [trim_at_leave, hnone]
  · intro pre lc post hsplit hlc hpre
    have hsome : all_cmds.find? (fun c => c.typeName == "Leave Game") = some lc := by
      rw [hsplit]
      apply find?_first _ _ _ (by simpa using hlc)
      intro c hc
      simpa using hpre c hc
    simp [trim_at_leave, hsome]

theorem trim_at_leave_correct_witness :
    trim_at_leave [mkCmd "Select" 10, mkCmd "Right Click" 900]
        [mkCmd "Select" 10, mkCmd "Leave Game" 500, mkCmd "Right Click" 900] 1000 =
      ([mkCmd "Select" 10], 500) := by
  have h := (trim_at_leave_correct [mkCmd "Select" 10, mkCmd "Right Click" 900]
      [mkCmd "Select" 10, mkCmd "Leave Game" 500, mkCmd "Right Click" 900] 1000).2
      [mkCmd "Select" 10] (mkCmd "Leave Game" 500) [mkCmd "Right Click" 900]
      (by decide) (by decide) (by decide)
  rw [h]
  decide

/-! ### Claim C6: action categorizer and production collapse -/

/-- The no-two-adjacent-production-tokens relation. -/
def notBothProd (a b : String) : Prop := ¬(a = "Prod" ∧ b = "Prod")

instance : DecidableRel notBothProd :=
  fun a b => inferInstanceAs (Decidable ¬(a = "Prod" ∧ b = "Prod"))

theorem collapseAux_sublist : ∀ (l : List String) (prev : String),
    (collapseAux prev l).Sublist l := by
  intro l
  induction l with
  | nil => intro _; simp [collapseAux]
  | cons c cs ih =>
    intro prev
    by_cases h : c = "Prod" ∧ prev = "Prod"
    · simpa [collapseAux, h] using (ih prev).cons c
    · simpa [collapseAux, h] using (ih c).cons₂ c

theorem collapseAux_filter : ∀ (l : List String) (prev : String),
    (collapseAux prev l).filter (fun s => s ≠ "Prod") =
      l.filter (fun s => s ≠ "Prod") := by
  intro l
  induction l with
  | nil => intro _; simp [collapseAux]
  | cons c cs ih =>
    intro prev
    by_cases h : c = "Prod" ∧ prev = "Prod"
    · rw [collapseAux, if_pos h, ih prev, List.filter_cons, if_neg (by simp [h.1])]
    · rw [collapseAux, if_neg h, List.filter_cons, List.filter_cons, ih c]

theorem collapseAux_chain : ∀ (l : List String) (prev : String),
    List.Chain' notBothProd (prev :: collapseAux prev l) := by
  intro l
  induction l with
  | nil => intro _; simp [collapseAux]
  | cons c cs ih =>
    intro prev
    by_cases h : c = "Prod" ∧ prev = "Prod"
    · rw [collapseAux, if_pos h]; exact ih prev
    · rw [collapseAux, if_neg h]
      exact List.chain'_cons.mpr ⟨fun hpc => h ⟨hpc.2, hpc.1⟩, ih c⟩

theorem collapseAux_id : ∀ (l : List String) (prev : String),
    List.Chain' notBothProd (prev :: l) → collapseAux prev l = l := by
  intro l
  induction l with
  | nil => intro _ _; simp [collapseAux]
  | cons c cs ih =>
    intro prev h
    rcases List.chain'_cons.mp h with ⟨hR, htail⟩
    rw [collapseAux, if_neg (fun hpc => hR ⟨hpc.2, hpc.1⟩), ih c htail]

/-- C6: the categorizer's token list before collapsing has the input's length;
collapsing yields a sublist (hence length at most the input's) that keeps every
non-production token in order, never contains two adjacent "Prod" tokens, and
is the identity on lists that already have no two adjacent "Prod" tokens. -/
theorem categorizer_collapse_correct (commands : List Cmd) (l : List String) :
    (commands.map categorize).length = commands.length ∧
    (collapse_consecutive_prod l).length ≤ l.length ∧
    (collapse_consecutive_prod l).Sublist l ∧
    (collapse_consecutive_prod l).filter (fun s => s ≠ "Prod") =
      l.filter (fun s => s ≠ "Prod") ∧
    List.Chain' notBothProd (collapse_consecutive_prod l) ∧
    (List.Chain' notBothProd l → collapse_consecutive_prod l = l) := by
  have hsub : (collapse_consecutive_prod l).Sublist l := by
    cases l with
    | nil => simp [collapse_consecutive_prod]
    | cons c cs => exact (collapseAux_sublist cs c).cons₂ c
  refine ⟨List.length_map _ _, hsub.length_le, hsub, ?_, ?_, ?_⟩
  · cases l with
    | nil => simp [collapse_consecutive_prod]
    | cons c cs =>
      rw [collapse_consecutive_prod, List.filter_cons, List.filter_cons,
        collapseAux_filter cs c]
  · cases l with
    | nil => simp [collapse_consecutive_prod]
    | cons c cs => exact collapseAux_chain cs c
  · intro h
    cases l with
    | nil => simp [collapse_consecutive_prod]
    | cons c cs => rw [collapse_consecutive_prod, collapseAux_id cs c h]

theorem categorizer_collapse_correct_witness :
    collapse_consecutive_prod ["H", "Prod", "R", "Prod"] = ["H", "Prod", "R", "Prod"] :=
  (categorizer_collapse_correct [] ["H", "Prod", "R", "Prod"]).2.2.2.2.2
    (by simp [List.chain'_cons, notBothProd])

/-! ### dictSet / alistGet? lemmas -/

theorem alistGet?_dictSet_self {α β : Type} [DecidableEq α] :
    ∀ (l : List (α × β)) (k : α) (v : β), alistGet? (dictSet l k v) k = some v := by
  intro l k v
  induction l with
  | nil => simp [dictSet, alistGet?]
  | cons kv rest ih =>
    by_cases h : kv.1 = k
    · simp [dictSet, h, alistGet?]
    · simp [dictSet, h, alistGet?, ih]

theorem keyList_nil {α β : Type} : keyList ([] : List (α × β)) = [] := rfl

theorem keyList_cons {α β : Type} (kv : α × β) (rest : List (α × β)) :
    keyList (kv :: rest) = kv.1 :: keyList rest := rfl

theorem alistGet?_dictSet_ne {α β : Type} [DecidableEq α] :
    ∀ (l : List (α × β)) (k k' : α) (v : β), k' ≠ k →
      alistGet? (dictSet l k v) k' = alistGet? l k' := by
  intro l k k' v hne
  have hne' : ¬ k = k' := fun h => hne h.symm
  induction l with
  | nil => simp [dictSet, alistGet?, hne']
  | cons kv rest ih =>
    by_cases h : kv.1 = k
    · subst h
      have hk' : ¬ kv.1 = k' := fun hh => hne hh.symm
      simp [dictSet, alistGet?, hk']
    · by_cases h' : kv.1 = k'
      · simp [dictSet, h, alistGet?, h', hne]
      · simp [dictSet, h, alistGet?, h', ih]

theorem keyList_dictSet_of_mem {α β : Type} [DecidableEq α] :
    ∀ (l : List (α × β)) (k : α) (v : β), k ∈ keyList l →
      keyList (dictSet l k v) = keyList l := by
  intro l k v
  induction l with
  | nil => intro hmem; simp [keyList] at hmem
  | cons kv rest ih =>
    intro hmem
    by_cases h : kv.1 = k
    · simp [dictSet, h, keyList]
    · have hrest : k ∈ keyList rest := by
        rw [keyList_cons, List.mem_cons] at hmem
        rcases hmem with h1 | h1
        · exact absurd h1.symm h
        · exact h1
      rw [dictSet, if_neg h, keyList_cons, keyList_cons, ih hrest]

theorem keyList_dictSet_of_not_mem {α β : Type} [DecidableEq α] :
    ∀ (l : List (α × β)) (k : α) (v : β), k ∉ keyList l →
      keyList (dictSet l k v) = keyList l ++ [k] := by
  intro l k v
  induction l with
  | nil => intro _; simp [dictSet, keyList]
  | cons kv rest ih =>
    intro hmem
    rw [keyList_cons, List.mem_cons] at hmem
    push_neg at hmem
    rw [dictSet, if_neg (fun h => hmem.1 h.symm), keyList_cons, keyList_cons,
      ih hmem.2, List.cons_append]

theorem alistGet?_append_right_of_ne {α β : Type} [DecidableEq α] :
    ∀ (l : List (α × β)) (g k : α) (v : β), k ≠ g →
      alistGet? (l ++ [(g, v)]) k = alistGet? l k := by
  intro l g k v hne
  have hne' : ¬ g = k := fun h => hne h.symm
  induction l with
  | nil => simp [alistGet?, hne']
  | cons kv rest ih =>
    by_cases h : kv.1 = k
    · simp [alistGet?, h]
    · simp [alistGet?, h, ih]

/-! ### Claim C4: blind validation never scores an untrained faction -/

/-- A sample as seen by validate.py: its faction and its source replay id. -/
structure VSample where
  race : String
  replay_id : ℕ
deriving DecidableEq, Repr

/-- validate.py: the races of this identity's samples whose replay ids were in
the training set (`trained_races`, a set — modelled by membership in a list). -/
def trainedRaces (all : List VSample) (trainIds : List ℕ) : List String :=
  (all.filter (fun s => s.replay_id ∈ trainIds)).map VSample.race

/-- validate.py: the held-out evaluation set — samples not used in training
whose race appears among the trained races. -/
def heldOut (all : List VSample) (trainIds : List ℕ) : List VSample :=
  all.filter (fun s => s.replay_id ∉ trainIds ∧ s.race ∈ trainedRaces all trainIds)

/-- C4: every sample in the held-out evaluation set was not in the training
set, and its faction appears among the races of that identity's samples whose
replay ids were in the training set; a faction present only in held-out data is
therefore excluded rather than scored. -/
theorem heldOut_races_trained (all : List VSample) (trainIds : List ℕ) :
    ∀ s ∈ heldOut all trainIds,
      s.replay_id ∉ trainIds ∧
      ∃ t ∈ all, t.replay_id ∈ trainIds ∧ t.race = s.race := by
  intro s hs
  rw [heldOut, List.mem_filter] at hs
  rcases hs with ⟨_, hcond⟩
  have hcond' : s.replay_id ∉ trainIds ∧ s.race ∈ trainedRaces all trainIds := by
    simpa using hcond
  refine ⟨hcond'.1, ?_⟩
  have := hcond'.2
  rw [trainedRaces, List.mem_map] at this
  rcases this with ⟨t, ht, hrace⟩
  rw [List.mem_filter] at ht
  exact ⟨t, ht.1, by simpa using ht.2, hrace⟩

theorem heldOut_races_trained_witness :
    (⟨"Protoss", 2⟩ : VSample).replay_id ∉ [1] ∧
      ∃ t ∈ [(⟨"Protoss", 1⟩ : VSample), ⟨"Protoss", 2⟩, ⟨"Zerg", 3⟩],
        t.replay_id ∈ [1] ∧ t.race = (⟨"Protoss", 2⟩ : VSample).race :=
  heldOut_races_trained [⟨"Protoss", 1⟩, ⟨"Protoss", 2⟩, ⟨"Zerg", 3⟩] [1]
    ⟨"Protoss", 2⟩ (by decide)

/-! ### Claim C7: prediction on a mismatched feature map -/

/-- The feature-row construction shared by predict.py, validate.py and
`create_feature_matrix`: `[s["features"].get(f, 0) for f in feature_names]`. -/
def buildRow (feature_names : List String) (features : List (String × ℚ)) :
    List ℚ :=
  feature_names.map (fun f => (alistGet? features f).getD 0)

/-- C7 counterexample: with model feature-name list `["a", "b"]` and a sample
feature map `{a: 1, c: 5}` — name "b" of the model missing from the map, name
"c" of the map absent from the model — prediction raises no error: it silently
pads the missing "b" with 0 and drops "c", yielding the width-2 vector `[1, 0]`.
The claim says this situation must raise a hard (fatal) error. -/
theorem buildRow_mismatch_no_error :
    buildRow ["a", "b"] [("a", 1), ("c", 5)] = [1, 0] := by
  decide

/-- C7 (amended): prediction never fails on a feature map that does not match
the model's feature-name list: the produced vector always has exactly the
model's width, each entry is the map's value for that name with missing names
padded by 0, and entries of the map whose names are absent from the model's
list are silently ignored. -/
theorem buildRow_pads_and_truncates (names : List String) (fm : List (String × ℚ)) :
    (buildRow names fm).length = names.length ∧
    (∀ i : ℕ, (buildRow names fm)[i]? =
      (names[i]?).map (fun f => (alistGet? fm f).getD 0)) ∧
    (∀ g v, g ∉ names → buildRow names (fm ++ [(g, v)]) = buildRow names fm) := by
  refine ⟨by simp [buildRow], fun i => by simp [buildRow], ?_⟩
  intro g v hg
  rw [buildRow, buildRow]
  apply List.map_congr_left
  intro f hf
  rw [alistGet?_append_right_of_ne]
  intro h
  exact hg (h ▸ hf)

theorem buildRow_pads_and_truncates_witness :
    buildRow ["a", "b"] ([("a", (1 : ℚ))] ++ [("c", 5)]) = buildRow ["a", "b"] [("a", 1)] :=
  (buildRow_pads_and_truncates ["a", "b"] [("a", 1)]).2.2 "c" 5 (by decide)

/-! ### Claim C1: apply_ngram_features -/

/-- A sample's scalar feature map (feature name → value). -/
abbrev FeatureMap := List (String × ℚ)

/-- A sample's per-channel raw n-gram data: channel → (counter, channel total). -/
abbrev RawNgrams := List (String × (Counter String × ℕ))

/-- The frozen global vocabulary: channel → ordered list of selected grams. -/
abbrev GlobalNgrams := List (String × List String)

/-- The assembled feature name `f"{channel}_{gram}"`. -/
def ngramKey (channel gram : String) : String := channel ++ "_" ++ gram

/-- The value assigned to one vocabulary token:
`counter.get(gram, 0) / total if total > 0 else 0`. -/
def ngramValue (ct : Counter String × ℕ) (gram : String) : ℚ :=
  if 0 < ct.2 then (cntGet ct.1 gram : ℚ) / (ct.2 : ℚ) else 0

/-- The inner loop of `apply_ngram_features` for one channel. -/
def applyChannel (channel : String) (ct : Counter String × ℕ) (fm : FeatureMap)
    (grams : List String) : FeatureMap :=
  grams.foldl (fun m gram => dictSet m (ngramKey channel gram) (ngramValue ct gram)) fm

/-- `apply_ngram_features(features, raw_ngrams, global_ngrams)`: for every
channel of the frozen vocabulary, look up the sample's raw counter for that
channel (`raw_ngrams.get(prefix, (Counter(), 0))`) and write one entry per
selected gram into the feature map. -/
def apply_ngram_features (features : FeatureMap) (raw : RawNgrams)
    (global : GlobalNgrams) : FeatureMap :=
  global.foldl
    (fun fm cg => applyChannel cg.1 ((alistGet? raw cg.1).getD ([], 0)) fm cg.2) features

/-- All feature names contributed by the vocabulary, channel-prefixed. -/
def ngramKeys (global : GlobalNgrams) : List String :=
  global.flatMap (fun cg => cg.2.map (ngramKey cg.1))

theorem applyChannel_keyList (channel : String) (ct : Counter String × ℕ) :
    ∀ (grams : List String) (fm : FeatureMap),
      (∀ g ∈ grams, ngramKey channel g ∉ keyList fm) →
      (grams.map (ngramKey channel)).Nodup →
      keyList (applyChannel channel ct fm grams) =
        keyList fm ++ grams.map (ngramKey channel) := by
  intro grams
  induction grams with
  | nil => intro fm _ _; simp [applyChannel]
  | cons g gs ih =>
    intro fm hfresh hnodup
    rw [List.map_cons, List.nodup_cons] at hnodup
    have hstep : keyList (dictSet fm (ngramKey channel g) (ngramValue ct g)) =
        keyList fm ++ [ngramKey channel g] :=
      keyList_dictSet_of_not_mem fm _ _ (hfresh g (by simp))
    have hfresh' : ∀ g' ∈ gs, ngramKey channel g' ∉
        keyList (dictSet fm (ngramKey channel g) (ngramValue ct g)) := by
      intro g' hg'
      rw [hstep]
      intro hmem
      rcases List.mem_append.mp hmem with h1 | h1
      · exact hfresh g' (by simp [hg']) h1
      · exact hnodup.1
          ((List.mem_singleton.mp h1) ▸ List.mem_map_of_mem (ngramKey channel) hg')
    rw [applyChannel, List.foldl_cons]
    have := ih (dictSet fm (ngramKey channel g) (ngramValue ct g)) hfresh' hnodup.2
    rw [applyChannel] at this
    rw [this, hstep, List.map_cons]
    simp

theorem applyChannel_get_untouched (channel : String) (ct : Counter String × ℕ) :
    ∀ (grams : List String) (fm : FeatureMap) (k : String),
      k ∉ grams.map (ngramKey channel) →
      alistGet? (applyChannel channel ct fm grams) k = alistGet? fm k := by
  intro grams
  induction grams with
  | nil => intro fm k _; simp [applyChannel]
  | cons g gs ih =>
    intro fm k hk
    rw [List.map_cons, List.mem_cons] at hk
    push_neg at hk
    rw [applyChannel, List.foldl_cons]
    have := ih (dictSet fm (ngramKey channel g) (ngramValue ct g)) k hk.2
    rw [applyChannel] at this
    rw [this, alistGet?_dictSet_ne _ _ _ _ hk.1]

theorem applyChannel_get_set (channel : String) (ct : Counter String × ℕ) :
    ∀ (grams : List String) (fm : FeatureMap) (g : String),
      (grams.map (ngramKey channel)).Nodup → g ∈ grams →
      alistGet? (applyChannel channel ct fm grams) (ngramKey channel g) =
        some (ngramValue ct g) := by
  intro grams
  induction grams with
  | nil => intro fm g _ hg; simp at hg
  | cons g0 gs ih =>
    intro fm g hnodup hg
    rw [List.map_cons, List.nodup_cons] at hnodup
    rw [applyChannel, List.foldl_cons]
    rcases List.mem_cons.mp hg with h | h
    · subst h
      have huntouched : ngramKey channel g ∉ gs.map (ngramKey channel) := hnodup.1
      have := applyChannel_get_untouched channel ct gs
        (dictSet fm (ngramKey channel g) (ngramValue ct g)) (ngramKey channel g) huntouched
      rw [applyChannel] at this
      rw [this, alistGet?_dictSet_self]
    · have := ih (dictSet fm (ngramKey channel g0) (ngramValue ct g0)) g hnodup.2 h
      rw [applyChannel] at this
      rw [this]

theorem apply_ngram_features_keyList (raw : RawNgrams) :
    ∀ (global : GlobalNgrams) (fm : FeatureMap),
      (∀ k ∈ ngramKeys global, k ∉ keyList fm) → (ngramKeys global).Nodup →
      keyList (apply_ngram_features fm raw global) =
        keyList fm ++ ngramKeys global := by
  intro global
  induction global with
  | nil => intro fm _ _; simp [apply_ngram_features, ngramKeys]
  | cons cg tl ih =>
    intro fm hfresh hnodup
    have hkeys : ngramKeys (cg :: tl) = cg.2.map (ngramKey cg.1) ++ ngramKeys tl := by
      simp [ngramKeys]
    rw [hkeys] at hfresh hnodup
    rw [List.nodup_append] at hnodup
    have hchan := applyChannel_keyList cg.1 ((alistGet? raw cg.1).getD ([], 0)) cg.2 fm
      (fun g hg => hfresh _ (List.mem_append_left _ (List.mem_map_of_mem _ hg)))
      hnodup.1
    have hfresh' : ∀ k ∈ ngramKeys tl,
        k ∉ keyList (applyChannel cg.1 ((alistGet? raw cg.1).getD ([], 0)) fm cg.2) := by
      intro k hk
      rw [hchan]
      intro hmem
      rcases List.mem_append.mp hmem with h1 | h1
      · exact hfresh k (List.mem_append_right _ hk) h1
      · exact hnodup.2.2 h1 hk
    rw [apply_ngram_features, List.foldl_cons]
    have := ih (applyChannel cg.1 ((alistGet? raw cg.1).getD ([], 0)) fm cg.2)
      hfresh' hnodup.2.1
    rw [apply_ngram_features] at this
    rw [this, hchan, hkeys, List.append_assoc]

theorem apply_ngram_features_get_untouched (raw : RawNgrams) :
    ∀ (global : GlobalNgrams) (fm : FeatureMap) (k : String),
      k ∉ ngramKeys global →
      alistGet? (apply_ngram_features fm raw global) k = alistGet? fm k := by
  intro global
  induction global with
  | nil => intro fm k _; simp [apply_ngram_features]
  | cons cg tl ih =>
    intro fm k hk
    have hkeys : ngramKeys (cg :: tl) = cg.2.map (ngramKey cg.1) ++ ngramKeys tl := by
      simp [ngramKeys]
    rw [hkeys, List.mem_append] at hk
    push_neg at hk
    rw [apply_ngram_features, List.foldl_cons]
    have := ih (applyChannel cg.1 ((alistGet? raw cg.1).getD ([], 0)) fm cg.2) k hk.2
    rw [apply_ngram_features] at this
    rw [this, applyChannel_get_untouched _ _ _ _ _ hk.1]

theorem apply_ngram_features_get_set (raw : RawNgrams) :
    ∀ (global : GlobalNgrams) (fm : FeatureMap) (ch : String) (grams : List String)
      (g : String),
      (ngramKeys global).Nodup → (ch, grams) ∈ global → g ∈ grams →
      alistGet? (apply_ngram_features fm raw global) (ngramKey ch g) =
        some (ngramValue ((alistGet? raw ch).getD ([], 0)) g) := by
  intro global
  induction global with
  | nil => intro fm ch grams g _ hmem _; simp at hmem
  | cons cg tl ih =>
    intro fm ch grams g hnodup hmem hg
    have hkeys : ngramKeys (cg :: tl) = cg.2.map (ngramKey cg.1) ++ ngramKeys tl := by
      simp [ngramKeys]
    rw [hkeys, List.nodup_append] at hnodup
    rw [apply_ngram_features, List.foldl_cons]
    rcases List.mem_cons.mp hmem with h | h
    · have hch : cg.1 = ch := by rw [← h]
      have hgr : cg.2 = grams := by rw [← h]
      have hkmem : ngramKey ch g ∈ cg.2.map (ngramKey cg.1) := by
        rw [hch, hgr]
        exact List.mem_map_of_mem _ hg
      have huntouched := apply_ngram_features_get_untouched raw tl
        (applyChannel cg.1 ((alistGet? raw cg.1).getD ([], 0)) fm cg.2)
        (ngramKey ch g) (fun hmem2 => hnodup.2.2 hkmem hmem2)
      rw [apply_ngram_features] at huntouched
      rw [huntouched, hch, hgr,
        applyChannel_get_set ch ((alistGet? raw ch).getD ([], 0)) grams fm g
          (by rw [← hch, ← hgr]; exact hch ▸ hnodup.1) hg]
    · have := ih (applyChannel cg.1 ((alistGet? raw cg.1).getD ([], 0)) fm cg.2)
        ch grams g hnodup.2.1 h hg
      rw [apply_ngram_features] at this
      rw [this]

/-- C1: under the structural facts that hold of the real pipeline — the
channel-prefixed vocabulary names are pairwise distinct and disjoint from the
sample's scalar feature names — the assembled map's key list is exactly the
scalar names followed by one channel-prefixed key per vocabulary token of every
channel; hence it has exactly `len(scalar) + sum(len(vocab[ch]))` entries; each
vocabulary key is valued `count/total`, and 0 whenever the channel has no
counter in this sample, the channel total is 0, or the token never occurred. -/
theorem apply_ngram_features_correct (features : FeatureMap) (raw : RawNgrams)
    (global : GlobalNgrams)
    (hfresh : ∀ k ∈ ngramKeys global, k ∉ keyList features)
    (hnodup : (ngramKeys global).Nodup) :
    keyList (apply_ngram_features features raw global) =
      keyList features ++ ngramKeys global ∧
    (apply_ngram_features features raw global).length =
      features.length + (global.map (fun cg => cg.2.length)).sum ∧
    (∀ ch grams, (ch, grams) ∈ global → ∀ g ∈ grams,
      alistGet? (apply_ngram_features features raw global) (ngramKey ch g) =
        some (ngramValue ((alistGet? raw ch).getD ([], 0)) g)) ∧
    (∀ ch grams, (ch, grams) ∈ global → ∀ g ∈ grams,
      (alistGet? raw ch = none ∨
        (∃ ct, alistGet? raw ch = some ct ∧ (ct.2 = 0 ∨ cntGet ct.1 g = 0))) →
      alistGet? (apply_ngram_features features raw global) (ngramKey ch g) = some 0) := by
  have hkeys := apply_ngram_features_keyList raw global features hfresh hnodup
  have hval : ∀ ch grams, (ch, grams) ∈ global → ∀ g ∈ grams,
      alistGet? (apply_ngram_features features raw global) (ngramKey ch g) =
        some (ngramValue ((alistGet? raw ch).getD ([], 0)) g) :=
    fun ch grams hmem g hg =>
      apply_ngram_features_get_set raw global features ch grams g hnodup hmem hg
  refine ⟨hkeys, ?_, hval, ?_⟩
  · have hlen : (apply_ngram_features features raw global).length =
        (keyList (apply_ngram_features features raw global)).length := by
      simp [keyList]
    rw [hlen, hkeys, List.length_append]
    congr 1
    · simp [keyList]
    · rw [ngramKeys, List.length_flatMap]
      congr 1
      apply List.map_congr_left
      intro cg _
      simp
  · intro ch grams hmem g hg hzero
    rw [hval ch grams hmem g hg]
    rcases hzero with h | ⟨ct, hct, hz⟩
    · simp [h, ngramValue]
    · rcases hz with hz | hz
      · simp [hct, ngramValue, hz]
      · simp [hct, ngramValue, hz]

theorem apply_ngram_features_correct_witness :
    keyList (apply_ngram_features [("apm", 150)]
        [("ng2", ([("H_S", 2)], 4))]
        [("ng2", ["H_S", "S_R"]), ("ng3", ["H_S_R"])]) =
      keyList [(("apm" : String), (150 : ℚ))] ++
        ngramKeys [("ng2", ["H_S", "S_R"]), ("ng3", ["H_S_R"])] :=
  (apply_ngram_features_correct [("apm", 150)] [("ng2", ([("H_S", 2)], 4))]
    [("ng2", ["H_S", "S_R"]), ("ng3", ["H_S_R"])] (by decide) (by decide)).1

/-! ### Numeric helpers for extract_features

Python floats are modelled as rationals.  `statistics.stdev` and the Euclidean
click distances involve a square root, which is irrational; since no claim
depends on the magnitude of those feature values, standard deviations are
represented by their squares (the sample variance) and distances by their
squares, with threshold comparisons squared accordingly.  What matters for the
claims — which entries exist, which divisions are guarded, and when the
fallible operations fail — is preserved exactly. -/

def meanVal (l : List ℚ) : ℚ := l.sum / (l.length : ℚ)

/-- `statistics.mean`: raises StatisticsError on an empty list. -/
def meanQ (l : List ℚ) : Except String ℚ :=
  if l.length = 0 then .error "mean requires at least one data point"
  else .ok (meanVal l)

def medianVal (l : List ℚ) : ℚ :=
  let s := List.insertionSort (fun a b : ℚ => a ≤ b) l
  let n := l.length
  if n % 2 = 1 then s.getD (n / 2) 0
  else (s.getD (n / 2 - 1) 0 + s.getD (n / 2) 0) / 2

/-- `statistics.median`: raises StatisticsError on an empty list. -/
def medianQ (l : List ℚ) : Except String ℚ :=
  if l.length = 0 then .error "no median for empty data"
  else .ok (medianVal l)

def stdevSqVal (l : List ℚ) : ℚ :=
  (l.map (fun x => (x - meanVal l) ^ 2)).sum / ((l.length : ℚ) - 1)

/-- `statistics.stdev` (represented by its square, the sample variance):
raises StatisticsError on fewer than two data points. -/
def stdevSqQ (l : List ℚ) : Except String ℚ :=
  if l.length < 2 then .error "stdev requires at least two data points"
  else .ok (stdevSqVal l)

/-- Python `/`: raises ZeroDivisionError when the denominator is 0. -/
def divE (a b : ℚ) : Except String ℚ :=
  if b = 0 then .error "division by zero" else .ok (a / b)

theorem meanQ_ok (l : List ℚ) (h : l ≠ []) : meanQ l = .ok (meanVal l) := by
  rw [meanQ, if_neg (by simpa [List.length_eq_zero] using h)]

theorem medianQ_ok (l : List ℚ) (h : l ≠ []) : medianQ l = .ok (medianVal l) := by
  rw [medianQ, if_neg (by simpa [List.length_eq_zero] using h)]

theorem stdevSqQ_ok (l : List ℚ) (h : 2 ≤ l.length) :
    stdevSqQ l = .ok (stdevSqVal l) := by
  rw [stdevSqQ, if_neg (by omega)]

theorem divE_ok (a b : ℚ) (h : b ≠ 0) : divE a b = .ok (a / b) := by
  rw [divE, if_neg h]

/-- Successive differences `[l[i] - l[i-1] for i in range(1, len(l))]`. -/
def successiveDiffs (l : List ℤ) : List ℤ :=
  List.zipWith (fun b a => b - a) l.tail l

theorem length_successiveDiffs (l : List ℤ) :
    (successiveDiffs l).length = l.length - 1 := by
  rw [successiveDiffs, List.length_zipWith, List.length_tail]
  omega

/-- Build a Python dict from `init` by executing the assignments in `entries`
in order. -/
def dictOfList {α β : Type} [DecidableEq α] (init : List (α × β))
    (entries : List (α × β)) : List (α × β) :=
  entries.foldl (fun m kv => dictSet m kv.1 kv.2) init

/-! ### extract_features, family by family (features.py lines 108-335) -/

/-- Frame-delta to milliseconds: `g * FRAME_MS`. -/
def intToMs (g : ℤ) : ℚ := (g : ℚ) * FRAME_MS

/-- TIMING PATTERNS (the `if gaps:` block). -/
def timingF (gaps : List ℤ) (gaps_ms : List ℚ) : Except String FeatureMap :=
  if gaps = [] then .ok []
  else do
    let gap_mean ← meanQ gaps_ms
    let gap_std ← if 1 < gaps_ms.length then stdevSqQ gaps_ms else .ok 0
    let gap_median ← medianQ gaps_ms
    let rapid ← divE (gaps_ms.countP (fun g => g < 100) : ℚ) (gaps_ms.length : ℚ)
    let moderate ← divE (gaps_ms.countP (fun g => 100 ≤ g ∧ g < 300) : ℚ)
      (gaps_ms.length : ℚ)
    let slow ← divE (gaps_ms.countP (fun g => 500 ≤ g) : ℚ) (gaps_ms.length : ℚ)
    let burstiness := if 0 < gap_mean then gap_std / gap_mean else 0
    .ok [("gap_mean", gap_mean), ("gap_std", gap_std), ("gap_median", gap_median),
         ("rapid_ratio", rapid), ("moderate_ratio", moderate), ("slow_ratio", slow),
         ("burstiness", burstiness)]

/-- HOTKEY GROUP N-GRAMS and EARLY HOTKEY GROUP N-GRAMS raw counters:
`tag` is "hkg" or "ehkg", `bound` the `len(groups) > bound` guard. -/
def groupNgramsRaw (tag : String) (bound : ℕ) (groups : List ℤ) : RawNgrams :=
  if bound < groups.length then
    [2, 3].filterMap (fun n =>
      let c := counterOfList (ngramWindows (groups.map toString) n)
      let total := (c.map Prod.snd).sum
      if 0 < total then some (tag ++ toString n, (c, total)) else none)
  else []

/-- HOTKEY GROUP TRANSITION MATRIX entries (the `len(groups) > 5` block). -/
def hkTransitions (groups : List ℤ) : FeatureMap :=
  if 5 < groups.length then
    let group_counts := counterOfList groups
    let used := List.insertionSort (fun a b : ℤ => a ≤ b) (keyList group_counts)
    let transitions := counterOfList (List.zipWith (fun a b => (a, b)) groups groups.tail)
    (used.take 5).flatMap (fun gfrom =>
      let from_total : ℕ := (used.map (fun gto => cntGet transitions (gfrom, gto))).sum
      if 0 < from_total then
        (used.take 5).filterMap (fun gto =>
          let prob : ℚ := (cntGet transitions (gfrom, gto) : ℚ) / (from_total : ℚ)
          if 0 < prob then
            some ("hk_tr_" ++ toString gfrom ++ "_" ++ toString gto, prob)
          else none)
      else [])
  else []

/-- HOTKEY PATTERNS (the `if hotkey_cmds:` block); also returns the hkg raw
n-gram counters. -/
def hotkeyF (commands : List Cmd) : Except String (FeatureMap × RawNgrams) :=
  let hotkey_cmds := commands.filter (fun c => c.typeName == "Hotkey")
  if hotkey_cmds = [] then .ok ([], [])
  else do
    let groups := hotkey_cmds.map (fun c => c.group.getD 0)
    let group_counts := counterOfList groups
    let conc ← divE (((mostCommon group_counts 2).map Prod.snd).sum : ℚ)
      (hotkey_cmds.length : ℚ)
    let assigns := hotkey_cmds.countP (fun c => c.hotkeyTypeName == some "Assign")
    let assignRat ← divE (assigns : ℚ) (hotkey_cmds.length : ℚ)
    let actionRat ← divE (hotkey_cmds.length : ℚ) (commands.length : ℚ)
    let primary : ℤ := match mostCommon group_counts 1 with
      | [] => 0
      | kv :: _ => kv.1
    .ok ([("hotkey_diversity", (group_counts.length : ℚ)),
          ("hotkey_concentration", conc),
          ("hotkey_assign_ratio", assignRat),
          ("hotkey_action_ratio", actionRat),
          ("primary_hotkey_group", (Int.cast primary : ℚ))] ++ hkTransitions groups,
         groupNgramsRaw "hkg" 10 groups)

/-- Squared Euclidean distances between consecutive pointed locations. -/
def clickDistSq (clicks : List (ℤ × ℤ)) : List ℚ :=
  List.zipWith (fun b a => ((b.1 - a.1 : ℤ) : ℚ) ^ 2 + ((b.2 - a.2 : ℤ) : ℚ) ^ 2)
    clicks.tail clicks

/-- CLICK PATTERNS (the `len(clicks) > 10` block); thresholds squared. -/
def clicksF (clicks : List (ℤ × ℤ)) : Except String FeatureMap :=
  if 10 < clicks.length then do
    let distances := clickDistSq clicks
    let dmean ← meanQ distances
    let dstd ← if 1 < distances.length then stdevSqQ distances else .ok 0
    let dmedian ← medianQ distances
    let small ← divE (distances.countP (fun d => d < 100 ^ 2) : ℚ) (distances.length : ℚ)
    let big ← divE (distances.countP (fun d => 1000 ^ 2 < d) : ℚ) (distances.length : ℚ)
    .ok [("click_dist_mean", dmean), ("click_dist_std", dstd),
         ("click_dist_median", dmedian), ("small_move_ratio", small),
         ("big_jump_ratio", big)]
  else .ok []

/-- `int(2 * FRAMES_PER_MINUTE)` = 2857. -/
def early_cutoff : ℤ := ⌊(2 * FRAMES_PER_MINUTE : ℚ)⌋

/-- The `if early_gaps:` sub-block of EARLY GAME. -/
def earlyGapFragF (early_gaps : List ℚ) : Except String FeatureMap :=
  if early_gaps = [] then .ok []
  else do
    let m ← meanQ early_gaps
    let r ← divE (early_gaps.countP (fun g => g < 100) : ℚ) (early_gaps.length : ℚ)
    .ok [("early_gap_mean", m), ("early_rapid_ratio", r)]

/-- EARLY GAME (the `len(early_cmds) > 20` block); also returns the ehkg raw
n-gram counters. -/
def earlyF (commands : List Cmd) : Except String (FeatureMap × RawNgrams) :=
  let early_cmds := commands.filter (fun c => c.frame < early_cutoff)
  if 20 < early_cmds.length then do
    let gapFrag ← earlyGapFragF ((successiveDiffs (early_cmds.map Cmd.frame)).map intToMs)
    let early_hotkeys := early_cmds.filter (fun c => c.typeName == "Hotkey")
    let early_assigns := (early_hotkeys.filter
      (fun c => c.hotkeyTypeName == some "Assign")).map (fun c => c.group.getD 0)
    let assignFrag := (List.range 3).map (fun i =>
      ("first_assign_" ++ toString i,
       if i < early_assigns.length then (Int.cast (early_assigns.getD i 0) : ℚ) else -1))
    let early_groups := early_hotkeys.map (fun c => c.group.getD 0)
    .ok ([("early_apm", (early_cmds.length : ℚ) / 2)] ++ gapFrag ++ assignFrag,
         groupNgramsRaw "ehkg" 5 early_groups)
  else .ok ([], [])

/-- OTHER RACE-NEUTRAL: queued ratio (unguarded division by `len(commands)`). -/
def queuedF (commands : List Cmd) : Except String FeatureMap := do
  let q ← divE (commands.countP (fun c => c.queued) : ℚ) (commands.length : ℚ)
  .ok [("queued_ratio", q)]

/-- The `if sizes:` sub-block of SELECTION PATTERNS. -/
def sizeFragF (sizes : List ℚ) : Except String FeatureMap :=
  if sizes = [] then .ok []
  else do
    let m ← meanQ sizes
    let s ← if 1 < sizes.length then stdevSqQ sizes else .ok 0
    .ok [("select_size_mean", m), ("select_size_std", s)]

/-- The `len(select_cmds) > 5` selection-tempo sub-block. -/
def tempoFragF (select_cmds : List Cmd) : Except String FeatureMap :=
  if 5 < select_cmds.length then do
    let sel_gaps_ms := (successiveDiffs (select_cmds.map Cmd.frame)).map intToMs
    let m ← meanQ sel_gaps_ms
    let md ← medianQ sel_gaps_ms
    let rb ← divE (sel_gaps_ms.countP (fun g => g < 200) : ℚ) (sel_gaps_ms.length : ℚ)
    .ok [("select_gap_mean", m), ("select_gap_median", md),
         ("reselect_burst_ratio", rb)]
  else .ok []

/-- SELECTION PATTERNS (the `if selections:` block). -/
def selectionF (commands : List Cmd) : Except String FeatureMap :=
  let selections := commands.filter (fun c => c.typeName == "Select")
  let select_adds := commands.filter (fun c => c.typeName == "Select Add")
  if selections = [] then .ok []
  else do
    let sizeFrag ← sizeFragF ((selections.filterMap Cmd.unitTagsLen).map
      (fun n : ℕ => (n : ℚ)))
    let selRat ← divE (selections.length : ℚ) (commands.length : ℚ)
    let addRat := if selections ≠ [] then
      (select_adds.length : ℚ) / (selections.length : ℚ) else 0
    let tempoFrag ← tempoFragF (commands.filter
      (fun c => c.typeName == "Select" || c.typeName == "Select Add" ||
        c.typeName == "Select Remove"))
    .ok (sizeFrag ++ [("selection_action_ratio", selRat), ("select_add_ratio", addRat)]
      ++ tempoFrag)

/-- The select-to-action latency gap list of SELECT-to-ACTION LATENCY. -/
def saGaps (commands : List Cmd) : List ℚ :=
  (List.zip commands commands.tail).filterMap (fun p =>
    if (p.1.typeName = "Select" ∨ p.1.typeName = "Hotkey") ∧
        ¬(p.2.typeName = "Select" ∨ p.2.typeName = "Select Add" ∨
          p.2.typeName = "Select Remove" ∨ p.2.typeName = "Hotkey") then
      if intToMs (p.2.frame - p.1.frame) < 2000 then
        some (intToMs (p.2.frame - p.1.frame))
      else none
    else none)

/-- SELECT-to-ACTION LATENCY (the `if sa_gaps:` block). -/
def saF (commands : List Cmd) : Except String FeatureMap :=
  if saGaps commands = [] then .ok []
  else do
    let m ← meanQ (saGaps commands)
    let md ← medianQ (saGaps commands)
    .ok [("sa_latency_mean", m), ("sa_latency_median", md)]

/-- The burst-run accumulator of the BURST STRUCTURE block. -/
def burstRuns : List ℚ → ℕ → List ℕ
  | [], cur => if 1 < cur then [cur] else []
  | g :: gs, cur =>
    if g < 150 then burstRuns gs (cur + 1)
    else if 1 < cur then cur :: burstRuns gs 1 else burstRuns gs 1

/-- The `if bursts:` sub-block of BURST STRUCTURE. -/
def burstFragF (bursts : List ℚ) (game_minutes : ℚ) : Except String FeatureMap :=
  if bursts = [] then .ok []
  else do
    let bc ← divE (bursts.length : ℚ) game_minutes
    let bm ← meanQ bursts
    .ok [("burst_count_per_min", bc), ("burst_size_mean", bm)]

/-- The `if inter_burst_gaps:` sub-block of BURST STRUCTURE. -/
def interFragF (inter : List ℚ) : Except String FeatureMap :=
  if inter = [] then .ok []
  else do
    let m ← meanQ inter
    .ok [("inter_burst_gap_mean", m)]

/-- BURST STRUCTURE (the second `if gaps:` block). -/
def burstsF (gaps : List ℤ) (gaps_ms : List ℚ) (game_minutes : ℚ) :
    Except String FeatureMap :=
  if gaps = [] then .ok []
  else do
    let burstFrag ← burstFragF ((burstRuns gaps_ms 1).map (fun n : ℕ => (n : ℚ)))
      game_minutes
    let interFrag ← interFragF (gaps_ms.filter (fun g => 150 ≤ g))
    .ok (burstFrag ++ interFrag)

/-- RHYTHM AUTOCORRELATION (the `len(gaps) > 20` block). -/
def autocorrF (gaps : List ℤ) (gaps_ms : List ℚ) : Except String FeatureMap :=
  if 20 < gaps.length then do
    let g_arr := gaps_ms.take 200
    let m ← meanQ g_arr
    let centered := g_arr.map (fun g => g - m)
    let var := (centered.map (fun c => c ^ 2)).sum
    if 0 < var then
      .ok [("autocorr_lag1",
        (List.zipWith (fun a b => a * b) centered centered.tail).sum / var)]
    else .ok []
  else .ok []

/-- MAP JUMPS (the second `len(clicks) > 10` block); distance threshold squared. -/
def mapJumpsF (commands : List Cmd) (clicks : List (ℤ × ℤ)) (game_minutes : ℚ) :
    Except String FeatureMap :=
  if 10 < clicks.length then do
    let click_frames := commands.filterMap
      (fun c => c.pos.map (fun p => (p.1, p.2, c.frame)))
    let map_jumps := (List.zip click_frames click_frames.tail).countP (fun p =>
      2000 ^ 2 < ((p.2.1 - p.1.1 : ℤ) : ℚ) ^ 2 + ((p.2.2.1 - p.1.2.1 : ℤ) : ℚ) ^ 2 ∧
      intToMs (p.2.2.2 - p.1.2.2) < 500)
    let mj ← divE (map_jumps : ℚ) game_minutes
    .ok [("map_jumps_per_min", mj)]
  else .ok []

/-- The APM-curve decay/variance sub-block (`if len(apm_curve) >= 5`). -/
def curveFragF (apm_curve : List ℚ) : Except String FeatureMap :=
  if 5 ≤ apm_curve.length then do
    let early_avg ← if apm_curve.take 3 = [] then (.ok 0 : Except String ℚ)
      else meanQ (apm_curve.take 3)
    let late_avg ← if 5 < apm_curve.length then meanQ ((apm_curve.drop 5).take 3)
      else .ok 0
    let decay := if 0 < early_avg then (early_avg - late_avg) / early_avg else 0
    let variance ← if 8 ≤ apm_curve.length then stdevSqQ (apm_curve.take 8) else .ok 0
    .ok [("apm_decay", decay), ("apm_variance", variance)]
  else .ok []

/-- The 10-bucket per-minute action curve. -/
def apmCurve (commands : List Cmd) : List ℚ :=
  (List.range 10).map (fun i : ℕ =>
    (cntGet (counterOfList (commands.map (fun c =>
      Int.fdiv c.frame ⌊FRAMES_PER_MINUTE⌋))) (Int.ofNat i) : ℚ))

/-- APM, the APM curve, per-category percentages and the think/do balance
(features.py lines 306-326). -/
def apmF (commands : List Cmd) (game_minutes : ℚ) : Except String FeatureMap := do
  let apm ← divE (commands.length : ℚ) game_minutes
  let curveFrag ← curveFragF (apmCurve commands)
  let cmd_types := counterOfList (commands.map Cmd.typeName)
  let total := (cmd_types.map Prod.snd).sum
  let pctHotkey ← divE (cntGet cmd_types "Hotkey" : ℚ) (total : ℚ)
  let pctRight ← divE (cntGet cmd_types "Right Click" : ℚ) (total : ℚ)
  let pctSelect ← divE (cntGet cmd_types "Select" : ℚ) (total : ℚ)
  let pctTargeted ← divE (cntGet cmd_types "Targeted Order" : ℚ) (total : ℚ)
  let thinking := cntGet cmd_types "Hotkey" + cntGet cmd_types "Select"
  let doing := cntGet cmd_types "Right Click" + cntGet cmd_types "Targeted Order"
  let thinkDo := if 0 < doing then (thinking : ℚ) / (doing : ℚ) else 0
  .ok ([("apm", apm)] ++ curveFrag ++
    [("pct_hotkey", pctHotkey), ("pct_right_click", pctRight),
     ("pct_select", pctSelect), ("pct_targeted_order", pctTargeted),
     ("think_do_ratio", thinkDo)])

/-- ABSTRACTED N-GRAMS raw counters (the `for n in [2, 3, 4]` loop). -/
def ngF (commands : List Cmd) : RawNgrams :=
  [2, 3, 4].filterMap (fun n =>
    let ngrams := extract_abstracted_ngrams commands n
    let total := (ngrams.map Prod.snd).sum
    if 0 < total then some ("ng" ++ toString n, (ngrams, total)) else none)

/-- The body of `extract_features` after the minimum-length gates: every
fallible Python operation (an unguarded division, `statistics.mean` /
`median` / `stdev`) runs in the `Except` monad; explicitly guarded ratios
(`x if cond else 0`) are total. -/
def extract_features_core (commands : List Cmd) (game_frames : ℤ) :
    Except String (FeatureMap × RawNgrams) := do
  let game_minutes : ℚ := ((game_frames : ℚ) * FRAME_MS) / 1000 / 60
  let gaps := successiveDiffs (commands.map Cmd.frame)
  let gaps_ms := gaps.map intToMs
  let timingFrag ← timingF gaps gaps_ms
  let hk ← hotkeyF commands
  let clicks := commands.filterMap Cmd.pos
  let clickFrag ← clicksF clicks
  let early ← earlyF commands
  let queuedFrag ← queuedF commands
  let selFrag ← selectionF commands
  let saFrag ← saF commands
  let burstFrag ← burstsF gaps gaps_ms game_minutes
  let acFrag ← autocorrF gaps gaps_ms
  let mjFrag ← mapJumpsF commands clicks game_minutes
  let apmFrag ← apmF commands game_minutes
  let features := dictOfList [] (timingFrag ++ hk.1 ++ clickFrag ++ early.1 ++
    queuedFrag ++ selFrag ++ saFrag ++ burstFrag ++ acFrag ++ mjFrag ++ apmFrag)
  let raw := dictOfList [] (hk.2 ++ early.2 ++ ngF commands)
  .ok (features, raw)

/-- `extract_features(commands, game_frames)`: `.ok none` models the
"(None, None)" insufficient-data result. -/
def extract_features (commands : List Cmd) (game_frames : ℤ) :
    Except String (Option (FeatureMap × RawNgrams)) :=
  if commands.length < MIN_COMMANDS then .ok none
  else if ((game_frames : ℚ) * FRAME_MS) / 1000 / 60 < MIN_GAME_MINUTES then .ok none
  else (extract_features_core commands game_frames).map some

/-! ### Totality lemmas for each feature family -/

theorem length_cast_ne_zero {α : Type} (l : List α) (h : l ≠ []) :
    ((l.length : ℚ)) ≠ 0 := by
  simpa using fun hh => h (List.length_eq_zero.mp hh)

theorem bindOk {eps alpha beta : Type} (a : alpha) (f : alpha → Except eps beta) :
    (Except.ok a : Except eps alpha) >>= f = f a := rfl

theorem timingF_ok (gaps : List ℤ) (gaps_ms : List ℚ)
    (hlen : gaps_ms.length = gaps.length) :
    ∃ r, timingF gaps gaps_ms = .ok r := by
  by_cases h : gaps = []
  · exact ⟨[], by simp only [timingF, if_pos h]⟩
  · have hne : gaps_ms ≠ [] := by
      intro hh
      exact h (List.length_eq_zero.mp (by rw [← hlen, hh, List.length_nil]))
    have hq : ((gaps_ms.length : ℚ)) ≠ 0 := length_cast_ne_zero _ hne
    have hdiv : ∀ a : ℚ, divE a (gaps_ms.length : ℚ) = .ok (a / (gaps_ms.length : ℚ)) :=
      fun a => divE_ok a _ hq
    simp only [timingF, if_neg h, meanQ_ok _ hne, medianQ_ok _ hne, hdiv, bindOk]
    by_cases h2 : 1 < gaps_ms.length
    · rw [if_pos h2, stdevSqQ_ok _ (by omega)]
      exact ⟨_, rfl⟩
    · rw [if_neg h2]
      exact ⟨_, rfl⟩

theorem hotkeyF_ok (commands : List Cmd) : ∃ r, hotkeyF commands = .ok r := by
  by_cases h : commands.filter (fun c => c.typeName == "Hotkey") = []
  · exact ⟨([], []), by simp only [hotkeyF, if_pos h]⟩
  · have hq : (((commands.filter (fun c => c.typeName == "Hotkey")).length : ℚ)) ≠ 0 :=
      length_cast_ne_zero _ h
    have hcmds : commands ≠ [] := by
      intro hh
      rw [hh] at h
      exact h rfl
    have hqc : ((commands.length : ℚ)) ≠ 0 := length_cast_ne_zero _ hcmds
    simp only [hotkeyF, if_neg h, divE_ok _ _ hq, divE_ok _ _ hqc, bindOk]
    exact ⟨_, rfl⟩

theorem length_clickDistSq (clicks : List (ℤ × ℤ)) :
    (clickDistSq clicks).length = clicks.length - 1 := by
  rw [clickDistSq, List.length_zipWith, List.length_tail]
  omega

theorem clicksF_ok (clicks : List (ℤ × ℤ)) : ∃ r, clicksF clicks = .ok r := by
  by_cases h : 10 < clicks.length
  · have hlen : (clickDistSq clicks).length = clicks.length - 1 := length_clickDistSq clicks
    have hne : clickDistSq clicks ≠ [] := by
      intro hh
      rw [hh] at hlen
      simp at hlen
      omega
    have hq : (((clickDistSq clicks).length : ℚ)) ≠ 0 := length_cast_ne_zero _ hne
    have hdiv : ∀ a : ℚ, divE a ((clickDistSq clicks).length : ℚ) =
        .ok (a / ((clickDistSq clicks).length : ℚ)) := fun a => divE_ok a _ hq
    simp only [clicksF, if_pos h, meanQ_ok _ hne, medianQ_ok _ hne, hdiv, bindOk]
    by_cases h2 : 1 < (clickDistSq clicks).length
    · rw [if_pos h2, stdevSqQ_ok _ (by omega)]
      exact ⟨_, rfl⟩
    · rw [if_neg h2]
      exact ⟨_, rfl⟩
  · exact ⟨[], by simp only [clicksF, if_neg h]⟩

theorem earlyGapFragF_ok (early_gaps : List ℚ) :
    ∃ r, earlyGapFragF early_gaps = .ok r := by
  by_cases h : early_gaps = []
  · exact ⟨[], by simp only [earlyGapFragF, if_pos h]⟩
  · have hq : ((early_gaps.length : ℚ)) ≠ 0 := length_cast_ne_zero _ h
    simp only [earlyGapFragF, if_neg h, meanQ_ok _ h, divE_ok _ _ hq, bindOk]
    exact ⟨_, rfl⟩

theorem earlyF_ok (commands : List Cmd) : ∃ r, earlyF commands = .ok r := by
  by_cases h : 20 < (commands.filter (fun c => c.frame < early_cutoff)).length
  · obtain ⟨r1, h1⟩ := earlyGapFragF_ok ((successiveDiffs ((commands.filter
      (fun c => c.frame < early_cutoff)).map Cmd.frame)).map intToMs)
    simp only [earlyF, if_pos h, h1, bindOk]
    exact ⟨_, rfl⟩
  · exact ⟨([], []), by simp only [earlyF, if_neg h]⟩

theorem queuedF_ok (commands : List Cmd) (h : commands ≠ []) :
    ∃ r, queuedF commands = .ok r := by
  simp only [queuedF, divE_ok _ _ (length_cast_ne_zero _ h), bindOk]
  exact ⟨_, rfl⟩

theorem sizeFragF_ok (sizes : List ℚ) : ∃ r, sizeFragF sizes = .ok r := by
  by_cases h : sizes = []
  · exact ⟨[], by simp only [sizeFragF, if_pos h]⟩
  · simp only [sizeFragF, if_neg h, meanQ_ok _ h, bindOk]
    by_cases h2 : 1 < sizes.length
    · rw [if_pos h2, stdevSqQ_ok _ (by omega)]
      exact ⟨_, rfl⟩
    · rw [if_neg h2]
      exact ⟨_, rfl⟩

theorem tempoFragF_ok (select_cmds : List Cmd) :
    ∃ r, tempoFragF select_cmds = .ok r := by
  by_cases h : 5 < select_cmds.length
  · have hlen : ((successiveDiffs (select_cmds.map Cmd.frame)).map intToMs).length =
        select_cmds.length - 1 := by
      rw [List.length_map, length_successiveDiffs, List.length_map]
    have hne : (successiveDiffs (select_cmds.map Cmd.frame)).map intToMs ≠ [] := by
      intro hh
      rw [hh] at hlen
      simp at hlen
      omega
    simp only [tempoFragF, if_pos h, meanQ_ok _ hne, medianQ_ok _ hne,
      divE_ok _ _ (length_cast_ne_zero _ hne), bindOk]
    exact ⟨_, rfl⟩
  · exact ⟨[], by simp only [tempoFragF, if_neg h]⟩

theorem selectionF_ok (commands : List Cmd) : ∃ r, selectionF commands = .ok r := by
  by_cases h : commands.filter (fun c => c.typeName == "Select") = []
  · exact ⟨[], by simp only [selectionF, if_pos h]⟩
  · have hcmds : commands ≠ [] := by
      intro hh
      rw [hh] at h
      exact h rfl
    have hqc : ((commands.length : ℚ)) ≠ 0 := length_cast_ne_zero _ hcmds
    obtain ⟨r1, h1⟩ := sizeFragF_ok (((commands.filter
      (fun c => c.typeName == "Select")).filterMap Cmd.unitTagsLen).map
      (fun n : ℕ => (n : ℚ)))
    obtain ⟨r2, h2⟩ := tempoFragF_ok (commands.filter
      (fun c => c.typeName == "Select" || c.typeName == "Select Add" ||
        c.typeName == "Select Remove"))
    simp only [selectionF, if_neg h, h1, h2, divE_ok _ _ hqc, bindOk]
    exact ⟨_, rfl⟩

theorem saF_ok (commands : List Cmd) : ∃ r, saF commands = .ok r := by
  by_cases h : saGaps commands = []
  · exact ⟨[], by simp only [saF, if_pos h]⟩
  · simp only [saF, if_neg h, meanQ_ok _ h, medianQ_ok _ h, bindOk]
    exact ⟨_, rfl⟩

theorem burstFragF_ok (bursts : List ℚ) (gm : ℚ) (hgm : gm ≠ 0) :
    ∃ r, burstFragF bursts gm = .ok r := by
  by_cases h : bursts = []
  · exact ⟨[], by simp only [burstFragF, if_pos h]⟩
  · simp only [burstFragF, if_neg h, divE_ok _ _ hgm, meanQ_ok _ h, bindOk]
    exact ⟨_, rfl⟩

theorem interFragF_ok (inter : List ℚ) : ∃ r, interFragF inter = .ok r := by
  by_cases h : inter = []
  · exact ⟨[], by simp only [interFragF, if_pos h]⟩
  · simp only [interFragF, if_neg h, meanQ_ok _ h, bindOk]
    exact ⟨_, rfl⟩

theorem burstsF_ok (gaps : List ℤ) (gaps_ms : List ℚ) (gm : ℚ) (hgm : gm ≠ 0) :
    ∃ r, burstsF gaps gaps_ms gm = .ok r := by
  by_cases h : gaps = []
  · exact ⟨[], by simp only [burstsF, if_pos h]⟩
  · obtain ⟨r1, h1⟩ := burstFragF_ok ((burstRuns gaps_ms 1).map (fun n : ℕ => (n : ℚ)))
      gm hgm
    obtain ⟨r2, h2⟩ := interFragF_ok (gaps_ms.filter (fun g => 150 ≤ g))
    simp only [burstsF, if_neg h, h1, h2, bindOk]
    exact ⟨_, rfl⟩

theorem autocorrF_ok (gaps : List ℤ) (gaps_ms : List ℚ)
    (hlen : gaps_ms.length = gaps.length) :
    ∃ r, autocorrF gaps gaps_ms = .ok r := by
  by_cases h : 20 < gaps.length
  · have hne : gaps_ms.take 200 ≠ [] := by
      intro hh
      have := congrArg List.length hh
      rw [List.length_take, hlen, List.length_nil] at this
      omega
    simp only [autocorrF, if_pos h, meanQ_ok _ hne, bindOk]
    by_cases h2 : 0 < (((gaps_ms.take 200).map
        (fun g => g - meanVal (gaps_ms.take 200))).map (fun c => c ^ 2)).sum
    · rw [if_pos h2]
      exact ⟨_, rfl⟩
    · rw [if_neg h2]
      exact ⟨_, rfl⟩
  · exact ⟨[], by simp only [autocorrF, if_neg h]⟩

theorem mapJumpsF_ok (commands : List Cmd) (clicks : List (ℤ × ℤ)) (gm : ℚ)
    (hgm : gm ≠ 0) : ∃ r, mapJumpsF commands clicks gm = .ok r := by
  by_cases h : 10 < clicks.length
  · simp only [mapJumpsF, if_pos h, divE_ok _ _ hgm, bindOk]
    exact ⟨_, rfl⟩
  · exact ⟨[], by simp only [mapJumpsF, if_neg h]⟩

theorem counterIncr_snd_sum {α : Type} [DecidableEq α] :
    ∀ (c : Counter α) (k : α),
      ((counterIncr c k).map Prod.snd).sum = (c.map Prod.snd).sum + 1 := by
  intro c
  induction c with
  | nil => intro k; simp [counterIncr, dictSet, cntGet, alistGet?]
  | cons kv rest ih =>
    intro k
    by_cases h : kv.1 = k
    · have hget : cntGet (kv :: rest) k = kv.2 := by
        simp [cntGet, alistGet?, h]
      simp only [counterIncr, dictSet, if_pos h, hget, List.map_cons, List.sum_cons]
      omega
    · have hget : cntGet (kv :: rest) k = cntGet rest k := by
        simp [cntGet, alistGet?, h]
      have hrec := ih k
      simp only [counterIncr] at hrec
      simp only [counterIncr, dictSet, if_neg h, hget, List.map_cons, List.sum_cons, hrec]
      omega

theorem counterOfList_snd_sum {α : Type} [DecidableEq α] (l : List α) :
    ((counterOfList l).map Prod.snd).sum = l.length := by
  have key : ∀ (l : List α) (c : Counter α),
      ((l.foldl counterIncr c).map Prod.snd).sum = (c.map Prod.snd).sum + l.length := by
    intro l
    induction l with
    | nil => intro c; simp
    | cons a as ih =>
      intro c
      rw [List.foldl_cons, ih (counterIncr c a), counterIncr_snd_sum]
      simp only [List.length_cons]
      omega
  rw [counterOfList, key]
  simp

theorem length_apmCurve (commands : List Cmd) : (apmCurve commands).length = 10 := by
  rw [apmCurve, List.length_map, List.length_range]

theorem curveFragF_ok (apm_curve : List ℚ) (hcl : apm_curve.length = 10) :
    ∃ r, curveFragF apm_curve = .ok r := by
  have htake3 : ¬ apm_curve.take 3 = [] := by
    intro hh
    have := congrArg List.length hh
    rw [List.length_take, hcl, List.length_nil] at this
    omega
  have hdrop : (apm_curve.drop 5).take 3 ≠ [] := by
    intro hh
    have := congrArg List.length hh
    rw [List.length_take, List.length_drop, hcl, List.length_nil] at this
    omega
  simp only [curveFragF, if_pos (show 5 ≤ apm_curve.length by omega)]
  rw [if_neg htake3, meanQ_ok _ htake3]
  simp only [bindOk]
  rw [if_pos (show 5 < apm_curve.length by omega), meanQ_ok _ hdrop]
  simp only [bindOk]
  rw [if_pos (show 8 ≤ apm_curve.length by omega),
    stdevSqQ_ok _ (by rw [List.length_take, hcl]; omega)]
  exact ⟨_, rfl⟩

theorem apmF_ok (commands : List Cmd) (gm : ℚ) (hcmds : commands ≠ [])
    (hgm : gm ≠ 0) : ∃ r, apmF commands gm = .ok r := by
  have htot : ((((counterOfList (commands.map Cmd.typeName)).map Prod.snd).sum : ℕ) : ℚ) ≠ 0 := by
    rw [counterOfList_snd_sum, List.length_map]
    exact length_cast_ne_zero _ hcmds
  have hdiv : ∀ a : ℚ, divE a ((((counterOfList (commands.map Cmd.typeName)).map
      Prod.snd).sum : ℕ) : ℚ) = .ok (a / ((((counterOfList (commands.map
      Cmd.typeName)).map Prod.snd).sum : ℕ) : ℚ)) := fun a => divE_ok a _ htot
  obtain ⟨r1, h1⟩ := curveFragF_ok (apmCurve commands) (length_apmCurve commands)
  simp only [apmF, divE_ok _ _ hgm, h1, hdiv, bindOk]
  exact ⟨_, rfl⟩

/-! ### Claims C5 and C8 -/

theorem extract_features_core_ok (commands : List Cmd) (game_frames : ℤ)
    (hcmds : commands ≠ [])
    (hgm : ((game_frames : ℚ) * FRAME_MS) / 1000 / 60 ≠ 0) :
    ∃ r, extract_features_core commands game_frames = .ok r := by
  obtain ⟨r1, h1⟩ := timingF_ok (successiveDiffs (commands.map Cmd.frame))
    ((successiveDiffs (commands.map Cmd.frame)).map intToMs)
    (List.length_map _ _)
  obtain ⟨r2, h2⟩ := hotkeyF_ok commands
  obtain ⟨r3, h3⟩ := clicksF_ok (commands.filterMap Cmd.pos)
  obtain ⟨r4, h4⟩ := earlyF_ok commands
  obtain ⟨r5, h5⟩ := queuedF_ok commands hcmds
  obtain ⟨r6, h6⟩ := selectionF_ok commands
  obtain ⟨r7, h7⟩ := saF_ok commands
  obtain ⟨r8, h8⟩ := burstsF_ok (successiveDiffs (commands.map Cmd.frame))
    ((successiveDiffs (commands.map Cmd.frame)).map intToMs)
    (((game_frames : ℚ) * FRAME_MS) / 1000 / 60) hgm
  obtain ⟨r9, h9⟩ := autocorrF_ok (successiveDiffs (commands.map Cmd.frame))
    ((successiveDiffs (commands.map Cmd.frame)).map intToMs)
    (List.length_map _ _)
  obtain ⟨r10, h10⟩ := mapJumpsF_ok commands (commands.filterMap Cmd.pos)
    (((game_frames : ℚ) * FRAME_MS) / 1000 / 60) hgm
  obtain ⟨r11, h11⟩ := apmF_ok commands (((game_frames : ℚ) * FRAME_MS) / 1000 / 60)
    hcmds hgm
  simp only [extract_features_core]
  rw [h1, h2, h3, h4, h5, h6, h7, h8, h9, h10, h11]
  exact ⟨_, rfl⟩

/-- C8: for every command list and duration passing the minimum gates, scalar
feature extraction is total — no division by zero and no other fallible
operation raises anywhere (every ratio with a possibly-zero denominator is
protected by an explicit guard that yields 0); the whole pipeline returns a
feature map. -/
theorem extract_features_no_exception (commands : List Cmd) (game_frames : ℤ)
    (h1 : ¬ commands.length < MIN_COMMANDS)
    (h2 : ¬ ((game_frames : ℚ) * FRAME_MS) / 1000 / 60 < MIN_GAME_MINUTES) :
    ∃ fr, extract_features commands game_frames = .ok (some fr) := by
  have hcmds : commands ≠ [] := by
    intro h
    rw [h] at h1
    simp [MIN_COMMANDS] at h1
  have hgm : ((game_frames : ℚ) * FRAME_MS) / 1000 / 60 ≠ 0 := by
    intro h
    rw [h] at h2
    norm_num [MIN_GAME_MINUTES] at h2
  obtain ⟨r, hr⟩ := extract_features_core_ok commands game_frames hcmds hgm
  refine ⟨r, ?_⟩
  rw [extract_features, if_neg h1, if_neg h2, hr]
  rfl

theorem extract_features_no_exception_witness :
    ∃ fr, extract_features (List.replicate 100 (mkCmd "Right Click" 0)) 5715 =
      .ok (some fr) :=
  extract_features_no_exception (List.replicate 100 (mkCmd "Right Click" 0)) 5715
    (by simp [MIN_COMMANDS]) (by norm_num [FRAME_MS, MIN_GAME_MINUTES])

/-- C5: `extract_features` returns the insufficient-data result (None, None)
exactly when the command list has fewer than 100 commands or the effective
duration is under 4 minutes of match time. -/
theorem extract_features_gate (commands : List Cmd) (game_frames : ℤ) :
    extract_features commands game_frames = .ok none ↔
      (commands.length < MIN_COMMANDS ∨
        ((game_frames : ℚ) * FRAME_MS) / 1000 / 60 < MIN_GAME_MINUTES) := by
  constructor
  · intro h
    by_contra hc
    push_neg at hc
    obtain ⟨fr, hfr⟩ := extract_features_no_exception commands game_frames
      (by omega) (by exact fun hh => absurd hh (not_lt.mpr hc.2))
    rw [hfr] at h
    exact Option.noConfusion (Except.ok.inj h)
  · intro h
    rcases h with h | h
    · rw [extract_features, if_pos h]
    · by_cases hlen : commands.length < MIN_COMMANDS
      · rw [extract_features, if_pos hlen]
      · rw [extract_features, if_neg hlen, if_pos h]

/-! ### Dict/Counter well-formedness lemmas (shared by several claims) -/

/-- All keys pairwise distinct: the invariant of every Python dict/Counter. -/
def NodupKeys {α β : Type} (l : List (α × β)) : Prop := (keyList l).Nodup

theorem dictSet_nodupKeys {α β : Type} [DecidableEq α] (l : List (α × β)) (k : α)
    (v : β) (h : NodupKeys l) : NodupKeys (dictSet l k v) := by
  by_cases hm : k ∈ keyList l
  · rw [NodupKeys, keyList_dictSet_of_mem _ _ _ hm]
    exact h
  · rw [NodupKeys, keyList_dictSet_of_not_mem _ _ _ hm]
    refine List.Nodup.append h (List.nodup_singleton k) ?_
    intro a ha hb
    exact hm ((List.mem_singleton.mp hb) ▸ ha)

theorem counterOfList_nodupKeys {α : Type} [DecidableEq α] (l : List α) :
    NodupKeys (counterOfList l) := by
  have key : ∀ (l2 : List α) (c : Counter α), NodupKeys c →
      NodupKeys (l2.foldl counterIncr c) := by
    intro l2
    induction l2 with
    | nil => intro c h; exact h
    | cons a as ih => intro c h; exact ih _ (dictSet_nodupKeys _ _ _ h)
  exact key l [] (by simp [NodupKeys, keyList])

theorem alistGet?_eq_of_mem {α β : Type} [DecidableEq α] :
    ∀ (l : List (α × β)) (k : α) (v : β), NodupKeys l → (k, v) ∈ l →
      alistGet? l k = some v := by
  intro l
  induction l with
  | nil => intro k v _ hm; simp at hm
  | cons kv rest ih =>
    intro k v hnd hm
    rcases List.mem_cons.mp hm with h | h
    · rw [← h]
      simp [alistGet?]
    · have hk : k ∈ keyList rest := List.mem_map_of_mem Prod.fst h
      have hne : kv.1 ≠ k := by
        rw [NodupKeys, keyList_cons] at hnd
        intro hh
        exact (List.nodup_cons.mp hnd).1 (hh ▸ hk)
      rw [NodupKeys, keyList_cons] at hnd
      simp only [alistGet?, if_neg hne]
      exact ih k v (List.nodup_cons.mp hnd).2 h

theorem mem_of_alistGet? {α β : Type} [DecidableEq α] :
    ∀ (l : List (α × β)) (k : α) (v : β), alistGet? l k = some v → (k, v) ∈ l := by
  intro l
  induction l with
  | nil => intro k v h; simp [alistGet?] at h
  | cons kv rest ih =>
    intro k v h
    by_cases hk : kv.1 = k
    · simp only [alistGet?, if_pos hk] at h
      have hkv : kv = (k, v) := Prod.ext hk (Option.some.inj h)
      exact hkv ▸ List.mem_cons_self kv rest
    · simp only [alistGet?, if_neg hk] at h
      exact List.mem_cons_of_mem kv (ih k v h)

theorem alistGet?_isSome_of_mem_keys {α β : Type} [DecidableEq α] :
    ∀ (l : List (α × β)) (k : α), k ∈ keyList l → ∃ v, alistGet? l k = some v := by
  intro l
  induction l with
  | nil => intro k h; simp [keyList] at h
  | cons kv rest ih =>
    intro k h
    by_cases hk : kv.1 = k
    · exact ⟨kv.2, by simp [alistGet?, hk]⟩
    · rw [keyList_cons, List.mem_cons] at h
      rcases h with h | h
      · exact absurd h.symm hk
      · obtain ⟨v, hv⟩ := ih k h
        exact ⟨v, by simp [alistGet?, hk, hv]⟩

theorem keyList_counterIncr_subset {α : Type} [DecidableEq α] (c : Counter α)
    (k a : α) : a ∈ keyList (counterIncr c k) → a = k ∨ a ∈ keyList c := by
  intro h
  by_cases hm : k ∈ keyList c
  · rw [counterIncr, keyList_dictSet_of_mem _ _ _ hm] at h
    exact Or.inr h
  · rw [counterIncr, keyList_dictSet_of_not_mem _ _ _ hm] at h
    rcases List.mem_append.mp h with h | h
    · exact Or.inr h
    · exact Or.inl (List.mem_singleton.mp h)

theorem counterOfList_keys_subset {α : Type} [DecidableEq α] (l : List α) :
    ∀ k ∈ keyList (counterOfList l), k ∈ l := by
  have key : ∀ (l2 : List α) (c : Counter α) (k : α),
      k ∈ keyList (l2.foldl counterIncr c) → k ∈ l2 ∨ k ∈ keyList c := by
    intro l2
    induction l2 with
    | nil => intro c k h; exact Or.inr h
    | cons a as ih =>
      intro c k h
      rcases ih (counterIncr c a) k h with h2 | h2
      · exact Or.inl (List.mem_cons_of_mem a h2)
      · rcases keyList_counterIncr_subset c a k h2 with h3 | h3
        · exact Or.inl (h3 ▸ List.mem_cons_self a as)
        · exact Or.inr h3
  intro k hk
  rcases key l [] k hk with h | h
  · exact h
  · simp [keyList] at h

theorem counterOfList_ne_nil {α : Type} [DecidableEq α] (l : List α)
    (h : l ≠ []) : counterOfList l ≠ [] := by
  intro hh
  have := counterOfList_snd_sum l
  rw [hh] at this
  simp at this
  exact h (List.length_eq_zero.mp this.symm)

/-- A pair of a stably-sorted counter is a pair of the counter. -/
theorem mem_of_mem_mostCommonAll {α : Type} [DecidableEq α] (c : Counter α)
    (kv : α × ℕ) (h : kv ∈ mostCommonAll c) : kv ∈ c :=
  (List.perm_insertionSort countGe c).mem_iff.mp h

theorem mostCommonAll_count {α : Type} [DecidableEq α] (c : Counter α)
    (kv : α × ℕ) (hnd : NodupKeys c) (h : kv ∈ mostCommonAll c) :
    cntGet c kv.1 = kv.2 := by
  have := alistGet?_eq_of_mem c kv.1 kv.2 hnd (by
    have := mem_of_mem_mostCommonAll c kv h
    simpa using this)
  rw [cntGet, this]
  rfl

theorem mostCommonAll_nodupKeys {α : Type} [DecidableEq α] (c : Counter α)
    (hnd : NodupKeys c) : (keyList (mostCommonAll c)).Nodup := by
  have hperm : List.Perm (keyList (mostCommonAll c)) (keyList c) :=
    (List.perm_insertionSort countGe c).map Prod.fst
  exact hperm.nodup_iff.mpr hnd

/-! ### Claim C9: training-set per-identity faction filtering -/

def MIN_GAMES : ℕ := 20

def MIN_OFFRACE : ℕ := 20

/-- `Counter(s["race"] for s in player_samples)`. -/
def raceCounts (samples : List VSample) : Counter String :=
  counterOfList (samples.map VSample.race)

/-- `race_counts.most_common(1)[0][0] if race_counts else None`. -/
def mainRace (samples : List VSample) : Option String :=
  match mostCommon (raceCounts samples) 1 with
  | [] => none
  | kv :: _ => some kv.1

/-- Python truthiness of the `--max-games` argument (`None` and `0` falsy). -/
def truthyMax (mg : Option ℕ) : Prop :=
  match mg with
  | none => False
  | some m => m ≠ 0

instance : DecidablePred truthyMax := by
  intro mg
  rcases mg with _ | m
  · exact isFalse (fun h => h)
  · exact inferInstanceAs (Decidable (m ≠ 0))

/-- One iteration of the `for race, count in race_counts.most_common():` loop:
skip an off-main race with fewer than MIN_OFFRACE games, cap each kept race at
max_games when one is given, extend the selection. -/
def trainStep (samples : List VSample) (max_games : Option ℕ)
    (sel : List VSample) (rc : String × ℕ) : List VSample :=
  let race_games := samples.filter (fun s => s.race = rc.1)
  if some rc.1 ≠ mainRace samples ∧ rc.2 < MIN_OFFRACE then sel
  else
    sel ++ (if truthyMax max_games ∧ max_games.getD 0 < race_games.length
      then race_games.take (max_games.getD 0) else race_games)

/-- The per-identity sample selection of train.py (lines 62-80). -/
def selectTrain (samples : List VSample) (max_games : Option ℕ) : List VSample :=
  (mostCommonAll (raceCounts samples)).foldl (trainStep samples max_games) []

/-- train.py lines 86-89: an identity whose selected samples number fewer than
MIN_GAMES is skipped entirely (with a warning) rather than trained on. -/
def trainKeep (samples : List VSample) (max_games : Option ℕ) :
    Option (List VSample) :=
  if (selectTrain samples max_games).length < MIN_GAMES then none
  else some (selectTrain samples max_games)

theorem trainStep_fold_mem (samples : List VSample) (mg : Option ℕ) :
    ∀ (rcl : List (String × ℕ)) (sel0 : List VSample) (s : VSample),
      s ∈ rcl.foldl (trainStep samples mg) sel0 →
      s ∈ sel0 ∨ ∃ rc ∈ rcl, s.race = rc.1 ∧ s ∈ samples ∧
        ¬(some rc.1 ≠ mainRace samples ∧ rc.2 < MIN_OFFRACE) := by
  intro rcl
  induction rcl with
  | nil => intro sel0 s h; exact Or.inl h
  | cons rc rest ih =>
    intro sel0 s h
    rw [List.foldl_cons] at h
    rcases ih _ s h with h2 | ⟨rc2, hrc2, hprops⟩
    · rw [trainStep] at h2
      by_cases hskip : some rc.1 ≠ mainRace samples ∧ rc.2 < MIN_OFFRACE
      · rw [if_pos hskip] at h2
        exact Or.inl h2
      · rw [if_neg hskip] at h2
        rcases List.mem_append.mp h2 with h3 | h3
        · exact Or.inl h3
        · have hfil : s ∈ samples.filter (fun s => s.race = rc.1) := by
            by_cases hcap : truthyMax mg ∧ mg.getD 0 <
                (samples.filter (fun s => s.race = rc.1)).length
            · rw [if_pos hcap] at h3
              exact List.take_subset _ _ h3
            · rw [if_neg hcap] at h3
              exact h3
          have := List.mem_filter.mp hfil
          exact Or.inr ⟨rc, List.mem_cons_self rc rest,
            by simpa using this.2, this.1, hskip⟩
    · exact Or.inr ⟨rc2, List.mem_cons_of_mem rc hrc2, hprops⟩

theorem trainStep_fold_countP_main (samples : List VSample) (mg : Option ℕ) :
    ∀ (rcl : List (String × ℕ)) (sel0 : List VSample),
      (∀ rc ∈ rcl, some rc.1 ≠ mainRace samples) →
      (rcl.foldl (trainStep samples mg) sel0).countP
          (fun s => some s.race = mainRace samples) =
        sel0.countP (fun s => some s.race = mainRace samples) := by
  intro rcl
  induction rcl with
  | nil => intro sel0 _; rfl
  | cons rc rest ih =>
    intro sel0 hne
    rw [List.foldl_cons, ih _ (fun rc2 h2 => hne rc2 (List.mem_cons_of_mem rc h2))]
    rw [trainStep]
    by_cases hskip : some rc.1 ≠ mainRace samples ∧ rc.2 < MIN_OFFRACE
    · rw [if_pos hskip]
    · rw [if_neg hskip, List.countP_append]
      have hzero : (if truthyMax mg ∧ mg.getD 0 <
          (samples.filter (fun s => s.race = rc.1)).length
          then (samples.filter (fun s => s.race = rc.1)).take (mg.getD 0)
          else samples.filter (fun s => s.race = rc.1)).countP
          (fun s => some s.race = mainRace samples) = 0 := by
        rw [List.countP_eq_zero]
        intro s hs
        have hfil : s ∈ samples.filter (fun s => s.race = rc.1) := by
          by_cases hcap : truthyMax mg ∧ mg.getD 0 <
              (samples.filter (fun s => s.race = rc.1)).length
          · rw [if_pos hcap] at hs
            exact List.take_subset _ _ hs
          · rw [if_neg hcap] at hs
            exact hs
        have hrace : s.race = rc.1 := by simpa using (List.mem_filter.mp hfil).2
        simp only [decide_eq_true_eq]
        rw [hrace]
        exact hne rc (List.mem_cons_self rc rest)
      rw [hzero]
      simp

theorem trainStep_fold_countP_main_le (samples : List VSample) (m : ℕ)
    (hm : 0 < m) :
    ∀ (rcl : List (String × ℕ)) (sel0 : List VSample), (keyList rcl).Nodup →
      (rcl.foldl (trainStep samples (some m)) sel0).countP
          (fun s => some s.race = mainRace samples) ≤
        sel0.countP (fun s => some s.race = mainRace samples) + m := by
  intro rcl
  induction rcl with
  | nil => intro sel0 _; exact Nat.le_add_right _ m
  | cons rc rest ih =>
    intro sel0 hnd
    rw [keyList_cons, List.nodup_cons] at hnd
    rw [List.foldl_cons]
    by_cases hmain : some rc.1 = mainRace samples
    · have hrest : ∀ rc2 ∈ rest, some rc2.1 ≠ mainRace samples := by
        intro rc2 h2 hh
        have : rc2.1 = rc.1 := by
          have := hh.trans hmain.symm
          exact Option.some.inj this
        exact hnd.1 (this ▸ List.mem_map_of_mem Prod.fst h2)
      rw [trainStep_fold_countP_main samples (some m) rest _ hrest, trainStep,
        if_neg (fun hc => hc.1 hmain), List.countP_append]
      have hcapped : (if truthyMax (some m) ∧ (some m : Option ℕ).getD 0 <
          (samples.filter (fun s => s.race = rc.1)).length
          then (samples.filter (fun s => s.race = rc.1)).take
            ((some m : Option ℕ).getD 0)
          else samples.filter (fun s => s.race = rc.1)).countP
          (fun s => some s.race = mainRace samples) ≤ m := by
        by_cases hcap : truthyMax (some m) ∧ (some m : Option ℕ).getD 0 <
            (samples.filter (fun s => s.race = rc.1)).length
        · rw [if_pos hcap]
          calc _ ≤ ((samples.filter (fun s => s.race = rc.1)).take
                ((some m : Option ℕ).getD 0)).length := List.countP_le_length _
            _ ≤ (some m : Option ℕ).getD 0 := by
                rw [List.length_take]
                exact min_le_left _ _
            _ = m := rfl
        · rw [if_neg hcap]
          have hlen : (samples.filter (fun s => s.race = rc.1)).length ≤ m := by
            by_contra hc
            push_neg at hc
            exact hcap ⟨fun h0 => absurd h0 (by omega), by simpa using hc⟩
          exact le_trans (List.countP_le_length _) hlen
      omega
    · have hstep : (trainStep samples (some m) sel0 rc).countP
          (fun s => some s.race = mainRace samples) =
          sel0.countP (fun s => some s.race = mainRace samples) := by
        rw [trainStep]
        by_cases hskip : some rc.1 ≠ mainRace samples ∧ rc.2 < MIN_OFFRACE
        · rw [if_pos hskip]
        · rw [if_neg hskip, List.countP_append]
          have hzero : (if truthyMax (some m) ∧ (some m : Option ℕ).getD 0 <
              (samples.filter (fun s => s.race = rc.1)).length
              then (samples.filter (fun s => s.race = rc.1)).take
                ((some m : Option ℕ).getD 0)
              else samples.filter (fun s => s.race = rc.1)).countP
              (fun s => some s.race = mainRace samples) = 0 := by
            rw [List.countP_eq_zero]
            intro s hs
            have hfil : s ∈ samples.filter (fun s => s.race = rc.1) := by
              by_cases hcap : truthyMax (some m) ∧ (some m : Option ℕ).getD 0 <
                  (samples.filter (fun s => s.race = rc.1)).length
              · rw [if_pos hcap] at hs
                exact List.take_subset _ _ hs
              · rw [if_neg hcap] at hs
                exact hs
            have hrace : s.race = rc.1 := by simpa using (List.mem_filter.mp hfil).2
            simp only [decide_eq_true_eq]
            rw [hrace]
            exact hmain
          rw [hzero]
          simp
      have hrec := ih (trainStep samples (some m) sel0 rc) hnd.2
      rw [hstep] at hrec
      exact hrec

/-- C9: (a) every selected sample comes from the identity's own samples, and a
selected sample of a non-main faction implies that faction's own sample count
reaches MIN_OFFRACE = 20; (b) with a positive per-player max-games cap, the
main faction contributes at most max_games samples to the selection; (c) an
identity is excluded from training (None, with a warning) exactly when its
remaining samples after filtering number fewer than MIN_GAMES = 20. -/
theorem train_filtering_correct (samples : List VSample) (m : ℕ) (hm : 0 < m) :
    (∀ (mg : Option ℕ), ∀ s ∈ selectTrain samples mg,
      s ∈ samples ∧
      (some s.race ≠ mainRace samples →
        MIN_OFFRACE ≤ cntGet (raceCounts samples) s.race)) ∧
    ((selectTrain samples (some m)).countP
      (fun s => some s.race = mainRace samples) ≤ m) ∧
    (∀ mg, trainKeep samples mg = none ↔
      (selectTrain samples mg).length < MIN_GAMES) := by
  refine ⟨?_, ?_, ?_⟩
  · intro mg s hs
    rcases trainStep_fold_mem samples mg _ [] s hs with h | ⟨rc, hrc, hrace, hmem, hskip⟩
    · simp at h
    · refine ⟨hmem, ?_⟩
      intro hne
      have hcount : cntGet (raceCounts samples) s.race = rc.2 := by
        have := mostCommonAll_count (raceCounts samples) rc
          (counterOfList_nodupKeys _) hrc
        rw [← hrace] at this
        exact this
      rw [hcount]
      by_contra hlt
      push_neg at hlt
      exact hskip ⟨hrace ▸ hne, hlt⟩
  · have hb := trainStep_fold_countP_main_le samples m hm
      (mostCommonAll (raceCounts samples)) []
      (mostCommonAll_nodupKeys _ (counterOfList_nodupKeys _))
    simpa [selectTrain] using hb
  · intro mg
    rw [trainKeep]
    constructor
    · intro h
      by_contra hc
      rw [if_neg hc] at h
      exact Option.noConfusion h
    · intro h
      rw [if_pos h]

theorem train_filtering_correct_witness :
    (selectTrain [⟨"Terran", 1⟩, ⟨"Terran", 2⟩, ⟨"Protoss", 3⟩] (some 1)).countP
      (fun s => some s.race =
        mainRace [⟨"Terran", 1⟩, ⟨"Terran", 2⟩, ⟨"Protoss", 3⟩]) ≤ 1 :=
  (train_filtering_correct [⟨"Terran", 1⟩, ⟨"Terran", 2⟩, ⟨"Protoss", 3⟩] 1
    (by decide)).2.1

/-! ### Claim C10: predict_samples -/

/-- Python list indexing `l[i]`: IndexError when out of range. -/
def getE (l : List ℚ) (i : ℕ) : Except String ℚ :=
  if i < l.length then .ok (l.getD i 0) else .error "index out of range"

/-- A Python list comprehension over fallible element computations. -/
def mapE {α β : Type} (f : α → Except String β) : List α → Except String (List β)
  | [] => .ok []
  | x :: xs => do
    let y ← f x
    let ys ← mapE f xs
    .ok (y :: ys)

/-- Python `list.index(a)`: first index of `a`, ValueError when absent. -/
def indexOfE {α : Type} [DecidableEq α] : List α → α → Except String ℕ
  | [], _ => .error "not in list"
  | x :: xs, a => if x = a then .ok 0 else (indexOfE xs a).map (· + 1)

theorem getE_ok (l : List ℚ) (i : ℕ) (h : i < l.length) :
    getE l i = .ok (l.getD i 0) := by
  rw [getE, if_pos h]

theorem mapE_ok {α β : Type} (f : α → Except String β) :
    ∀ (l : List α), (∀ x ∈ l, ∃ y, f x = .ok y) →
      ∃ ys, mapE f l = .ok ys ∧ ys.length = l.length := by
  intro l
  induction l with
  | nil => intro _; exact ⟨[], rfl, rfl⟩
  | cons x xs ih =>
    intro h
    obtain ⟨y, hy⟩ := h x (List.mem_cons_self x xs)
    obtain ⟨ys, hys, hlen⟩ := ih (fun a ha => h a (List.mem_cons_of_mem x ha))
    refine ⟨y :: ys, ?_, by simp [hlen]⟩
    rw [mapE, hy, hys]
    rfl

theorem indexOfE_ok_of_mem {α : Type} [DecidableEq α] :
    ∀ (l : List α) (a : α), a ∈ l →
      ∃ i, indexOfE l a = .ok i ∧ i < l.length := by
  intro l
  induction l with
  | nil => intro a ha; simp at ha
  | cons x xs ih =>
    intro a ha
    by_cases hx : x = a
    · exact ⟨0, by rw [indexOfE, if_pos hx], by simp⟩
    · have hmem : a ∈ xs := by
        rcases List.mem_cons.mp ha with h | h
        · exact absurd h.symm hx
        · exact h
      obtain ⟨i, hi, hlt⟩ := ih a hmem
      refine ⟨i + 1, ?_, by simp; omega⟩
      rw [indexOfE, if_neg hx, hi]
      rfl

theorem mem_enumFrom_lt {α : Type} :
    ∀ (l : List α) (n : ℕ) (p : ℕ × α), p ∈ l.enumFrom n → p.1 < n + l.length := by
  intro l
  induction l with
  | nil => intro n p h; simp at h
  | cons a as ih =>
    intro n p h
    rw [List.enumFrom, List.mem_cons] at h
    rcases h with h | h
    · rw [h]
      simp
    · have := ih (n + 1) p h
      simp only [List.length_cons]
      omega

theorem mem_enum_lt {α : Type} (l : List α) (p : ℕ × α) (h : p ∈ l.enum) :
    p.1 < l.length := by
  have := mem_enumFrom_lt l 0 p h
  omega

/-- The trained model as consumed by predict.py: frozen vocabulary, ordered
feature names, class list, and the scaler/classifier as black-box functions
(scikit-learn is an external collaborator). -/
structure PredModel where
  feature_names : List String
  global_ngrams : GlobalNgrams
  classes : List String
  scale : List ℚ → List ℚ
  predictRow : List ℚ → String
  probaRow : List ℚ → List ℚ

/-- An extracted sample as passed to predict_samples. -/
structure PSample where
  features : FeatureMap
  raw_ngrams : RawNgrams

/-- The prediction report returned for one player. -/
structure PredReport where
  prediction : String
  confidence : ℚ
  avg_prob : ℚ
  all_preds : Counter String
  avg_probs : List (String × ℚ)
  games_analyzed : ℕ

/-- The scaled feature rows: apply_ngram_features, then the feature-matrix
row over the model's feature names, then the scaler. -/
def scaledRows (samples : List PSample) (model : PredModel) : List (List ℚ) :=
  samples.map (fun s => model.scale (buildRow model.feature_names
    (apply_ngram_features s.features s.raw_ngrams model.global_ngrams)))

/-- `clf.predict(X_scaled)`. -/
def predsOf (samples : List PSample) (model : PredModel) : List String :=
  (scaledRows samples model).map model.predictRow

/-- `clf.predict_proba(X_scaled)`. -/
def probsOf (samples : List PSample) (model : PredModel) : List (List ℚ) :=
  (scaledRows samples model).map model.probaRow

/-- `predict_samples(samples, model)` (predict.py lines 47-95): None when
fewer than 3 samples; otherwise apply the frozen vocabulary, build and scale
the feature matrix, classify each game, and aggregate votes, confidence and
average class probabilities into the report. -/
def predict_samples (samples : List PSample) (model : PredModel) :
    Except String (Option PredReport) :=
  if samples.length < 3 then .ok none
  else
    match mostCommon (counterOfList (predsOf samples model)) 1 with
    | [] => .error "index out of range"
    | top :: _ => do
      let confidence ← divE (top.2 : ℚ) ((predsOf samples model).length : ℚ)
      let class_idx ← indexOfE model.classes top.1
      let plist ← mapE (fun p => getE p class_idx) (probsOf samples model)
      let avg_prob ← meanQ plist
      let avg_probs ← mapE (fun ic => do
          let ps ← mapE (fun p => getE p ic.1) (probsOf samples model)
          let mv ← meanQ ps
          .ok (ic.2, mv)) model.classes.enum
      .ok (some ⟨top.1, confidence, avg_prob,
        counterOfList (predsOf samples model), avg_probs, samples.length⟩)

theorem length_predsOf (samples : List PSample) (model : PredModel) :
    (predsOf samples model).length = samples.length := by
  rw [predsOf, List.length_map, scaledRows, List.length_map]

theorem length_probsOf (samples : List PSample) (model : PredModel) :
    (probsOf samples model).length = samples.length := by
  rw [probsOf, List.length_map, scaledRows, List.length_map]

theorem take_one_eq_cons {α : Type} :
    ∀ (l : List α) (a : α) (t : List α), l.take 1 = a :: t →
      ∃ rest, l = a :: rest := by
  intro l a t h
  cases l with
  | nil => simp at h
  | cons x xs =>
    rw [List.take_succ_cons, List.take_zero] at h
    exact ⟨xs, by rw [(List.cons.inj h).1]⟩

/-- C10: predict_samples yields no prediction (None) exactly when fewer than
3 valid samples exist; with at least 3, it returns a report whose games count
is the number of samples, whose vote table is the per-game vote counter, whose
predicted label attains the maximal vote count, and whose confidence is the
top vote count divided by the number of predictions (= samples). -/
theorem predict_samples_correct (samples : List PSample) (model : PredModel)
    (hcls : ∀ x, model.predictRow x ∈ model.classes)
    (hproba : ∀ x, (model.probaRow x).length = model.classes.length) :
    (predict_samples samples model = .ok none ↔ samples.length < 3) ∧
    (¬ samples.length < 3 →
      ∃ report, predict_samples samples model = .ok (some report) ∧
        report.games_analyzed = samples.length ∧
        report.all_preds = counterOfList (predsOf samples model) ∧
        report.confidence = (cntGet (counterOfList (predsOf samples model))
          report.prediction : ℚ) / (samples.length : ℚ) ∧
        (∀ lbl, cntGet (counterOfList (predsOf samples model)) lbl ≤
          cntGet (counterOfList (predsOf samples model)) report.prediction)) := by
  have hmain : ¬ samples.length < 3 →
      ∃ report, predict_samples samples model = .ok (some report) ∧
        report.games_analyzed = samples.length ∧
        report.all_preds = counterOfList (predsOf samples model) ∧
        report.confidence = (cntGet (counterOfList (predsOf samples model))
          report.prediction : ℚ) / (samples.length : ℚ) ∧
        (∀ lbl, cntGet (counterOfList (predsOf samples model)) lbl ≤
          cntGet (counterOfList (predsOf samples model)) report.prediction) := by
    intro hlen
    have hplen : (predsOf samples model).length = samples.length :=
      length_predsOf samples model
    have hpne : predsOf samples model ≠ [] := by
      intro hh
      rw [hh] at hplen
      simp at hplen
      omega
    have hcne : counterOfList (predsOf samples model) ≠ [] :=
      counterOfList_ne_nil _ hpne
    set cnt := counterOfList (predsOf samples model) with hcnt
    cases htop : mostCommon cnt 1 with
    | nil =>
      exfalso
      rw [mostCommon] at htop
      rcases List.take_eq_nil_iff.mp htop with h | h
      · exact absurd h (by omega)
      · have hle := (List.perm_insertionSort countGe cnt).length_eq
        rw [h] at hle
        exact hcne (List.length_eq_zero.mp hle.symm)
    | cons top rest =>
      obtain ⟨tail, hsorted⟩ := take_one_eq_cons _ _ _ htop
      have htopmem : top ∈ cnt :=
        (List.perm_insertionSort countGe cnt).mem_iff.mp
          (hsorted ▸ List.mem_cons_self top tail)
      have htopcount : cntGet cnt top.1 = top.2 :=
        mostCommonAll_count cnt top (counterOfList_nodupKeys _)
          (by rw [mostCommonAll, hsorted]; exact List.mem_cons_self top tail)
      have htopcls : top.1 ∈ model.classes := by
        have hkey : top.1 ∈ keyList cnt := List.mem_map_of_mem Prod.fst htopmem
        have hpred : top.1 ∈ predsOf samples model :=
          counterOfList_keys_subset _ _ hkey
        rw [predsOf] at hpred
        obtain ⟨row, _, hrow⟩ := List.mem_map.mp hpred
        exact hrow ▸ hcls row
      obtain ⟨idx, hidx, hidxlt⟩ := indexOfE_ok_of_mem model.classes top.1 htopcls
      have hq : (((predsOf samples model).length : ℕ) : ℚ) ≠ 0 :=
        length_cast_ne_zero _ hpne
      have hrows : ∀ p ∈ probsOf samples model, p.length = model.classes.length := by
        intro p hp
        rw [probsOf] at hp
        obtain ⟨row, _, hrow⟩ := List.mem_map.mp hp
        exact hrow ▸ hproba row
      obtain ⟨plist, hplist, hplistlen⟩ := mapE_ok (fun p => getE p idx)
        (probsOf samples model)
        (fun p hp => ⟨p.getD idx 0, getE_ok p idx ((hrows p hp) ▸ hidxlt)⟩)
      have hplne : plist ≠ [] := by
        intro hh
        rw [hh] at hplistlen
        rw [length_probsOf] at hplistlen
        simp at hplistlen
        omega
      obtain ⟨aps, haps, _⟩ := mapE_ok (fun ic : ℕ × String => do
          let ps ← mapE (fun p => getE p ic.1) (probsOf samples model)
          let mv ← meanQ ps
          (.ok (ic.2, mv) : Except String (String × ℚ))) model.classes.enum
        (by
          intro ic hic
          have hiclt : ic.1 < model.classes.length := mem_enum_lt _ _ hic
          obtain ⟨ps, hps, hpslen⟩ := mapE_ok (fun p => getE p ic.1)
            (probsOf samples model)
            (fun p hp => ⟨p.getD ic.1 0, getE_ok p ic.1 ((hrows p hp) ▸ hiclt)⟩)
          have hpsne : ps ≠ [] := by
            intro hh
            rw [hh] at hpslen
            rw [length_probsOf] at hpslen
            simp at hpslen
            omega
          refine ⟨(ic.2, meanVal ps), ?_⟩
          show (do
            let ps2 ← mapE (fun p => getE p ic.1) (probsOf samples model)
            let mv ← meanQ ps2
            (.ok (ic.2, mv) : Except String (String × ℚ))) = _
          rw [hps, bindOk, meanQ_ok _ hpsne]
          rfl)
      refine ⟨⟨top.1, (top.2 : ℚ) / ((predsOf samples model).length : ℚ),
        meanVal plist, cnt, aps, samples.length⟩, ?_, rfl, rfl, ?_, ?_⟩
      · rw [predict_samples, if_neg hlen]
        simp only [← hcnt, htop]
        rw [divE_ok _ _ hq, bindOk, hidx, bindOk, hplist, bindOk,
          meanQ_ok _ hplne, bindOk, haps, bindOk]
      · simp only [htopcount, hplen]
      · intro lbl
        have hsortcons : List.insertionSort countGe cnt = top :: tail := hsorted
        have hsortd : List.Sorted countGe (List.insertionSort countGe cnt) :=
          List.sorted_insertionSort countGe cnt
        rw [hsortcons] at hsortd
        rw [htopcount]
        by_cases hmem : lbl ∈ keyList cnt
        · obtain ⟨v, hv⟩ := alistGet?_isSome_of_mem_keys cnt lbl hmem
          have hvmem : (lbl, v) ∈ cnt := mem_of_alistGet? cnt lbl v hv
          have hvs : (lbl, v) ∈ top :: tail := by
            rw [← hsortcons]
            exact (List.perm_insertionSort countGe cnt).mem_iff.mpr hvmem
          have hvle : v ≤ top.2 := by
            rcases List.mem_cons.mp hvs with h | h
            · exact le_of_eq (congrArg Prod.snd h)
            · exact List.rel_of_sorted_cons hsortd _ h
          rw [cntGet, hv]
          exact hvle
        · have : alistGet? cnt lbl = none := by
            by_contra hc
            rcases Option.ne_none_iff_exists.mp hc with ⟨v, hv⟩
            exact hmem (List.mem_map_of_mem Prod.fst (mem_of_alistGet? cnt lbl v hv.symm))
          rw [cntGet, this]
          exact Nat.zero_le _
  constructor
  · constructor
    · intro h
      by_contra hc
      obtain ⟨report, hrep, _⟩ := hmain hc
      rw [hrep] at h
      exact Option.noConfusion (Except.ok.inj h)
    · intro h
      rw [predict_samples, if_pos h]
  · exact hmain

theorem predict_samples_correct_witness :
    ∃ report, predict_samples [⟨[], []⟩, ⟨[], []⟩, ⟨[], []⟩]
        ⟨[], [], ["A"], id, fun _ => "A", fun _ => [1]⟩ = .ok (some report) ∧
      report.games_analyzed = 3 ∧
      report.all_preds = counterOfList (predsOf [⟨[], []⟩, ⟨[], []⟩, ⟨[], []⟩]
        ⟨[], [], ["A"], id, fun _ => "A", fun _ => [1]⟩) ∧
      report.confidence = (cntGet (counterOfList (predsOf
        [⟨[], []⟩, ⟨[], []⟩, ⟨[], []⟩]
        ⟨[], [], ["A"], id, fun _ => "A", fun _ => [1]⟩)) report.prediction : ℚ) /
        ((3 : ℕ) : ℚ) ∧
      (∀ lbl, cntGet (counterOfList (predsOf [⟨[], []⟩, ⟨[], []⟩, ⟨[], []⟩]
          ⟨[], [], ["A"], id, fun _ => "A", fun _ => [1]⟩)) lbl ≤
        cntGet (counterOfList (predsOf [⟨[], []⟩, ⟨[], []⟩, ⟨[], []⟩]
          ⟨[], [], ["A"], id, fun _ => "A", fun _ => [1]⟩)) report.prediction) :=
  (predict_samples_correct [⟨[], []⟩, ⟨[], []⟩, ⟨[], []⟩]
    ⟨[], [], ["A"], id, fun _ => "A", fun _ => [1]⟩
    (fun x => List.mem_singleton.mpr rfl) (fun x => rfl)).2 (by decide)

/-! ### Claim C2: select_global_ngrams -/

theorem cntGet_dictSet {α : Type} [DecidableEq α] (c : Counter α) (k k2 : α)
    (v : ℕ) : cntGet (dictSet c k v) k2 = if k2 = k then v else cntGet c k2 := by
  by_cases h : k2 = k
  · rw [if_pos h, h, cntGet, alistGet?_dictSet_self]
    rfl
  · rw [if_neg h, cntGet, alistGet?_dictSet_ne _ _ _ _ h]
    rfl

theorem alistGet?_eq_none_iff {α β : Type} [DecidableEq α] (l : List (α × β))
    (k : α) : alistGet? l k = none ↔ k ∉ keyList l := by
  constructor
  · intro h hk
    obtain ⟨v, hv⟩ := alistGet?_isSome_of_mem_keys l k hk
    rw [h] at hv
    exact Option.noConfusion hv
  · intro hk
    cases hv : alistGet? l k with
    | none => rfl
    | some v =>
      exact absurd (List.mem_map_of_mem Prod.fst (mem_of_alistGet? l k v hv)) hk

theorem cntGet_eq_zero_of_not_mem {α : Type} [DecidableEq α] (c : Counter α)
    (k : α) (h : k ∉ keyList c) : cntGet c k = 0 := by
  rw [cntGet, (alistGet?_eq_none_iff c k).mpr h]
  rfl

theorem cntGet_cons_self {α : Type} [DecidableEq α] (kv : α × ℕ) (c : Counter α) :
    cntGet (kv :: c) kv.1 = kv.2 := by
  simp [cntGet, alistGet?]

theorem cntGet_cons_ne {α : Type} [DecidableEq α] (kv : α × ℕ) (c : Counter α)
    (k : α) (h : kv.1 ≠ k) : cntGet (kv :: c) k = cntGet c k := by
  simp [cntGet, alistGet?, h]

/-- The in-place accumulation loop of `Counter.__iadd__`, before
`_keep_positive`. -/
def innerAdd {α : Type} [DecidableEq α] (a b : Counter α) : Counter α :=
  b.foldl (fun acc kv => dictSet acc kv.1 (cntGet acc kv.1 + kv.2)) a

theorem counterAdd_eq_filter {α : Type} [DecidableEq α] (a b : Counter α) :
    counterAdd a b = (innerAdd a b).filter (fun kv => 0 < kv.2) := rfl

theorem innerAdd_cnt {α : Type} [DecidableEq α] :
    ∀ (b a : Counter α) (k : α), NodupKeys b →
      cntGet (innerAdd a b) k = cntGet a k + cntGet b k := by
  intro b
  induction b with
  | nil =>
    intro a k _
    simp [innerAdd, cntGet, alistGet?]
  | cons kv bs ih =>
    intro a k hnd
    rw [NodupKeys, keyList_cons, List.nodup_cons] at hnd
    rw [innerAdd, List.foldl_cons]
    have hrec := ih (dictSet a kv.1 (cntGet a kv.1 + kv.2)) k hnd.2
    rw [innerAdd] at hrec
    rw [hrec, cntGet_dictSet]
    by_cases h : k = kv.1
    · rw [if_pos h, h, cntGet_eq_zero_of_not_mem bs kv.1 hnd.1, cntGet_cons_self]
      omega
    · rw [if_neg h, cntGet_cons_ne kv bs k (fun hh => h hh.symm)]

theorem innerAdd_nodupKeys {α : Type} [DecidableEq α] :
    ∀ (b a : Counter α), NodupKeys a → NodupKeys (innerAdd a b) := by
  intro b
  induction b with
  | nil => intro a h; exact h
  | cons kv bs ih =>
    intro a h
    rw [innerAdd, List.foldl_cons]
    have := ih (dictSet a kv.1 (cntGet a kv.1 + kv.2)) (dictSet_nodupKeys _ _ _ h)
    rw [innerAdd] at this
    exact this

theorem cntGet_filter_pos {α : Type} [DecidableEq α] :
    ∀ (c : Counter α) (k : α), NodupKeys c →
      cntGet (c.filter (fun kv => 0 < kv.2)) k = cntGet c k := by
  intro c
  induction c with
  | nil => intro k _; rfl
  | cons kv rest ih =>
    intro k hnd
    rw [NodupKeys, keyList_cons, List.nodup_cons] at hnd
    rw [List.filter_cons]
    by_cases hpos : 0 < kv.2
    · rw [if_pos (by simpa using hpos)]
      by_cases hk : kv.1 = k
      · rw [← hk, cntGet_cons_self, cntGet_cons_self]
      · rw [cntGet_cons_ne _ _ _ hk, cntGet_cons_ne _ _ _ hk, ih k hnd.2]
    · rw [if_neg (by simpa using hpos)]
      by_cases hk : kv.1 = k
      · rw [← hk, cntGet_cons_self, ih kv.1 hnd.2,
          cntGet_eq_zero_of_not_mem rest kv.1 hnd.1]
        omega
      · rw [cntGet_cons_ne _ _ _ hk, ih k hnd.2]

theorem counterAdd_cnt {α : Type} [DecidableEq α] (a b : Counter α) (k : α)
    (ha : NodupKeys a) (hb : NodupKeys b) :
    cntGet (counterAdd a b) k = cntGet a k + cntGet b k := by
  rw [counterAdd_eq_filter, cntGet_filter_pos _ _ (innerAdd_nodupKeys b a ha),
    innerAdd_cnt b a k hb]

theorem counterAdd_nodupKeys {α : Type} [DecidableEq α] (a b : Counter α)
    (ha : NodupKeys a) : NodupKeys (counterAdd a b) := by
  rw [counterAdd_eq_filter, NodupKeys]
  exact List.Nodup.sublist ((List.filter_sublist _).map Prod.fst)
    (innerAdd_nodupKeys b a ha)

theorem counterAdd_pos {α : Type} [DecidableEq α] (a b : Counter α) :
    ∀ kv ∈ counterAdd a b, 0 < kv.2 := by
  intro kv h
  rw [counterAdd_eq_filter] at h
  simpa using (List.mem_filter.mp h).2

theorem pos_key_iff {α : Type} [DecidableEq α] (c : Counter α)
    (hpos : ∀ kv ∈ c, 0 < kv.2) (k : α) : k ∈ keyList c ↔ 0 < cntGet c k := by
  constructor
  · intro h
    obtain ⟨v, hv⟩ := alistGet?_isSome_of_mem_keys c k h
    have := hpos (k, v) (mem_of_alistGet? c k v hv)
    rw [cntGet, hv]
    exact this
  · intro h
    cases hv : alistGet? c k with
    | none =>
      rw [cntGet, hv] at h
      simp at h
    | some v => exact List.mem_map_of_mem Prod.fst (mem_of_alistGet? c k v hv)

/-- `global_counts[prefix] = Counter()` when absent, then
`global_counts[prefix] += counter`. -/
def dictAddCounter (g : List (String × Counter String)) (ch : String)
    (c : Counter String) : List (String × Counter String) :=
  dictSet g ch (counterAdd ((alistGet? g ch).getD []) c)

/-- The aggregation loop of `select_global_ngrams`: sum every sample's
per-channel counter into one global counter per channel. -/
def aggregate (allRaw : List RawNgrams) : List (String × Counter String) :=
  allRaw.foldl (fun g sample =>
    sample.foldl (fun g2 pc => dictAddCounter g2 pc.1 pc.2.1) g) []

/-- `select_global_ngrams(all_raw_ngrams)`: aggregate, then per channel keep
the top-N grams by `most_common`. -/
def select_global_ngrams (allRaw : List RawNgrams) : GlobalNgrams :=
  (aggregate allRaw).map (fun pc =>
    (pc.1, (mostCommon pc.2 (topNFor pc.1)).map Prod.fst))

/-- A concrete sample whose "ehkg3" channel holds eight distinct grams, once
each (total 8). -/
def cxA : RawNgrams :=
  [("ehkg3", ([("a1", 1), ("a2", 1), ("a3", 1), ("a4", 1), ("a5", 1), ("a6", 1),
    ("a7", 1), ("a8", 1)], 8))]

/-- A concrete sample whose "ehkg3" channel holds one gram, once (total 1). -/
def cxB : RawNgrams :=
  [("ehkg3", ([("b1", 1)], 1))]

/-- C2 counterexample: [cxA, cxB] and [cxB, cxA] are permutations of each
other, yet select_global_ngrams returns different vocabularies: with all nine
"ehkg3" gram counts tied at 1, `most_common` (heapq.nlargest, a stable
descending sort) breaks the tie by insertion order into the aggregated
Counter, and that insertion order follows the order in which the samples were
supplied.  [cxA, cxB] keeps a1..a8; [cxB, cxA] keeps b1, a1..a7. -/
theorem select_global_ngrams_order_dependent :
    List.Perm [cxA, cxB] [cxB, cxA] ∧
      select_global_ngrams [cxA, cxB] ≠ select_global_ngrams [cxB, cxA] := by
  constructor
  · exact List.Perm.swap cxB cxA []
  · decide

/-- Every per-channel counter of the sample has pairwise-distinct gram keys
(the Counter invariant of the real pipeline). -/
def WFRaw (s : RawNgrams) : Prop := ∀ pc ∈ s, NodupKeys pc.2.1

instance (s : RawNgrams) : Decidable (WFRaw s) :=
  inferInstanceAs (Decidable (∀ pc ∈ s, ((keyList pc.2.1)).Nodup))

/-- Every stored channel counter is well formed: distinct keys, positive
counts. -/
def GoodCounters (g : List (String × Counter String)) : Prop :=
  ∀ pc ∈ g, NodupKeys pc.2 ∧ ∀ kv ∈ pc.2, 0 < kv.2

/-- The count of gram `k` in channel `ch` of a global-counts dict. -/
def chanCnt (g : List (String × Counter String)) (ch k : String) : ℕ :=
  cntGet ((alistGet? g ch).getD []) k

/-- The count of gram `k` contributed by one sample to channel `ch`. -/
def sampleCnt (s : RawNgrams) (ch k : String) : ℕ :=
  (s.map (fun pc => if pc.1 = ch then cntGet pc.2.1 k else 0)).sum

/-- The aggregate count of gram `k` in channel `ch` over all samples — a pure
multiset sum, manifestly independent of sample order. -/
def aggCnt (l : List RawNgrams) (ch k : String) : ℕ :=
  (l.map (fun s => sampleCnt s ch k)).sum

theorem mem_dictSet {α β : Type} [DecidableEq α] :
    ∀ (l : List (α × β)) (k : α) (v : β) (kv : α × β),
      kv ∈ dictSet l k v → kv = (k, v) ∨ kv ∈ l := by
  intro l
  induction l with
  | nil =>
    intro k v kv h
    rw [dictSet] at h
    exact Or.inl (List.mem_singleton.mp h)
  | cons x rest ih =>
    intro k v kv h
    rw [dictSet] at h
    by_cases hx : x.1 = k
    · rw [if_pos hx, List.mem_cons] at h
      rcases h with h | h
      · exact Or.inl h
      · exact Or.inr (List.mem_cons_of_mem x h)
    · rw [if_neg hx, List.mem_cons] at h
      rcases h with h | h
      · exact Or.inr (h ▸ List.mem_cons_self x rest)
      · rcases ih k v kv h with h2 | h2
        · exact Or.inl h2
        · exact Or.inr (List.mem_cons_of_mem x h2)

theorem cur_nodup_of_good (g : List (String × Counter String)) (ch : String)
    (hg : GoodCounters g) : NodupKeys ((alistGet? g ch).getD []) := by
  cases hv : alistGet? g ch with
  | none => exact List.nodup_nil
  | some c0 => exact (hg (ch, c0) (mem_of_alistGet? g ch c0 hv)).1

theorem chanCnt_dictAddCounter (g : List (String × Counter String))
    (ch ch2 k : String) (c : Counter String) (hg : GoodCounters g)
    (hc : NodupKeys c) :
    chanCnt (dictAddCounter g ch c) ch2 k =
      chanCnt g ch2 k + (if ch2 = ch then cntGet c k else 0) := by
  by_cases h : ch2 = ch
  · rw [if_pos h, h, chanCnt, dictAddCounter, alistGet?_dictSet_self,
      Option.getD_some, counterAdd_cnt _ _ _ (cur_nodup_of_good g ch hg) hc]
    rfl
  · rw [if_neg h, chanCnt, dictAddCounter, alistGet?_dictSet_ne _ _ _ _ h]
    simp [chanCnt]

theorem goodCounters_dictAddCounter (g : List (String × Counter String))
    (ch : String) (c : Counter String) (hg : GoodCounters g) :
    GoodCounters (dictAddCounter g ch c) := by
  intro pc hpc
  rcases mem_dictSet _ _ _ _ hpc with h | h
  · rw [h]
    exact ⟨counterAdd_nodupKeys _ _ (cur_nodup_of_good g ch hg),
      counterAdd_pos _ _⟩
  · exact hg pc h

theorem mem_keys_dictAddCounter (g : List (String × Counter String))
    (ch ch2 : String) (c : Counter String) :
    ch2 ∈ keyList (dictAddCounter g ch c) ↔ ch2 = ch ∨ ch2 ∈ keyList g := by
  rw [dictAddCounter]
  by_cases hm : ch ∈ keyList g
  · rw [keyList_dictSet_of_mem _ _ _ hm]
    constructor
    · exact Or.inr
    · intro h
      rcases h with h | h
      · exact h ▸ hm
      · exact h
  · rw [keyList_dictSet_of_not_mem _ _ _ hm, List.mem_append, List.mem_singleton]
    exact Or.comm

theorem chanCnt_sampleFold (samplesRaw : RawNgrams) :
    ∀ (g : List (String × Counter String)) (ch k : String), GoodCounters g →
      WFRaw samplesRaw →
      chanCnt (samplesRaw.foldl (fun g2 pc => dictAddCounter g2 pc.1 pc.2.1) g) ch k =
        chanCnt g ch k + sampleCnt samplesRaw ch k := by
  induction samplesRaw with
  | nil => intro g ch k _ _; simp [sampleCnt]
  | cons pc rest ih =>
    intro g ch k hg hwf
    rw [List.foldl_cons, ih (dictAddCounter g pc.1 pc.2.1) ch k
      (goodCounters_dictAddCounter g pc.1 pc.2.1 hg)
      (fun pc2 h2 => hwf pc2 (List.mem_cons_of_mem pc h2)),
      chanCnt_dictAddCounter g pc.1 ch k pc.2.1 hg
        (hwf pc (List.mem_cons_self pc rest))]
    simp only [sampleCnt, List.map_cons, List.sum_cons]
    have hswap : (if ch = pc.1 then cntGet pc.2.1 k else 0) =
        (if pc.1 = ch then cntGet pc.2.1 k else 0) := by
      by_cases h : ch = pc.1
      · rw [if_pos h, if_pos h.symm]
      · rw [if_neg h, if_neg (fun hh => h hh.symm)]
    rw [hswap]
    omega

theorem goodCounters_sampleFold (samplesRaw : RawNgrams) :
    ∀ (g : List (String × Counter String)), GoodCounters g →
      GoodCounters (samplesRaw.foldl (fun g2 pc => dictAddCounter g2 pc.1 pc.2.1) g) := by
  induction samplesRaw with
  | nil => intro g hg; exact hg
  | cons pc rest ih =>
    intro g hg
    rw [List.foldl_cons]
    exact ih _ (goodCounters_dictAddCounter g pc.1 pc.2.1 hg)

theorem mem_keys_sampleFold (samplesRaw : RawNgrams) :
    ∀ (g : List (String × Counter String)) (ch : String),
      ch ∈ keyList (samplesRaw.foldl (fun g2 pc => dictAddCounter g2 pc.1 pc.2.1) g) ↔
        ch ∈ keyList g ∨ ch ∈ keyList samplesRaw := by
  induction samplesRaw with
  | nil => intro g ch; simp [keyList]
  | cons pc rest ih =>
    intro g ch
    rw [List.foldl_cons, ih (dictAddCounter g pc.1 pc.2.1) ch,
      mem_keys_dictAddCounter, keyList_cons, List.mem_cons]
    tauto

theorem chanCnt_aggFold (l : List RawNgrams) :
    ∀ (g : List (String × Counter String)) (ch k : String), GoodCounters g →
      (∀ s ∈ l, WFRaw s) →
      chanCnt (l.foldl (fun g sample =>
          sample.foldl (fun g2 pc => dictAddCounter g2 pc.1 pc.2.1) g) g) ch k =
        chanCnt g ch k + aggCnt l ch k := by
  induction l with
  | nil => intro g ch k _ _; simp [aggCnt]
  | cons s rest ih =>
    intro g ch k hg hwf
    rw [List.foldl_cons, ih _ ch k
      (goodCounters_sampleFold s g hg)
      (fun s2 h2 => hwf s2 (List.mem_cons_of_mem s h2)),
      chanCnt_sampleFold s g ch k hg (hwf s (List.mem_cons_self s rest))]
    simp only [aggCnt, List.map_cons, List.sum_cons]
    omega

theorem goodCounters_aggregate (l : List RawNgrams) :
    GoodCounters (aggregate l) := by
  rw [aggregate]
  have key : ∀ (l2 : List RawNgrams) (g : List (String × Counter String)),
      GoodCounters g → GoodCounters (l2.foldl (fun g sample =>
        sample.foldl (fun g2 pc => dictAddCounter g2 pc.1 pc.2.1) g) g) := by
    intro l2
    induction l2 with
    | nil => intro g hg; exact hg
    | cons s rest ih =>
      intro g hg
      rw [List.foldl_cons]
      exact ih _ (goodCounters_sampleFold s g hg)
  exact key l [] (fun pc hpc => absurd hpc (List.not_mem_nil pc))

theorem chanCnt_aggregate (l : List RawNgrams) (hwf : ∀ s ∈ l, WFRaw s)
    (ch k : String) : chanCnt (aggregate l) ch k = aggCnt l ch k := by
  rw [aggregate, chanCnt_aggFold l [] ch k
    (fun pc hpc => absurd hpc (List.not_mem_nil pc)) hwf]
  simp [chanCnt, cntGet, alistGet?]

theorem mem_keys_aggregate (l : List RawNgrams) (ch : String) :
    ch ∈ keyList (aggregate l) ↔ ∃ s ∈ l, ch ∈ keyList s := by
  rw [aggregate]
  have key : ∀ (l2 : List RawNgrams) (g : List (String × Counter String)),
      ch ∈ keyList (l2.foldl (fun g sample =>
          sample.foldl (fun g2 pc => dictAddCounter g2 pc.1 pc.2.1) g) g) ↔
        ch ∈ keyList g ∨ ∃ s ∈ l2, ch ∈ keyList s := by
    intro l2
    induction l2 with
    | nil => intro g; simp
    | cons s rest ih =>
      intro g
      rw [List.foldl_cons, ih, mem_keys_sampleFold]
      constructor
      · intro h
        rcases h with (h | h) | h
        · exact Or.inl h
        · exact Or.inr ⟨s, List.mem_cons_self s rest, h⟩
        · obtain ⟨s2, hs2, hk2⟩ := h
          exact Or.inr ⟨s2, List.mem_cons_of_mem s hs2, hk2⟩
      · intro h
        rcases h with h | ⟨s2, hs2, hk2⟩
        · exact Or.inl (Or.inl h)
        · rcases List.mem_cons.mp hs2 with h2 | h2
          · exact Or.inl (Or.inr (h2 ▸ hk2))
          · exact Or.inr ⟨s2, h2, hk2⟩
  rw [key l []]
  simp [keyList]

theorem alistGet?_select (l : List RawNgrams) (ch : String) :
    alistGet? (select_global_ngrams l) ch =
      (alistGet? (aggregate l) ch).map
        (fun c => (mostCommon c (topNFor ch)).map Prod.fst) := by
  rw [select_global_ngrams]
  generalize aggregate l = g
  induction g with
  | nil => rfl
  | cons pc rest ih =>
    rw [List.map_cons]
    by_cases h : pc.1 = ch
    · simp only [alistGet?, if_pos h]
      rw [h]
      rfl
    · simp only [alistGet?, if_neg h, ih]

theorem nodup_of_nodupKeys {α β : Type} (l : List (α × β)) (h : NodupKeys l) :
    l.Nodup := List.Nodup.of_map Prod.fst h

theorem sorted_eq_of_perm_of_nodup_counts {α : Type} :
    ∀ (l1 l2 : List (α × ℕ)), List.Perm l1 l2 → List.Sorted countGe l1 →
      List.Sorted countGe l2 → ((l1.map Prod.snd)).Nodup → l1 = l2 := by
  intro l1
  induction l1 with
  | nil =>
    intro l2 hp _ _ _
    exact (hp.symm.eq_nil).symm
  | cons x xs ih =>
    intro l2 hp hs1 hs2 hnd
    cases l2 with
    | nil => exact absurd hp.eq_nil (by simp)
    | cons y ys =>
      by_cases hxy : x = y
      · subst hxy
        rw [ih ys hp.cons_inv hs1.of_cons hs2.of_cons
          (by rw [List.map_cons, List.nodup_cons] at hnd; exact hnd.2)]
      · exfalso
        have hxmem : x ∈ y :: ys := hp.subset (List.mem_cons_self x xs)
        have hymem : y ∈ x :: xs := hp.symm.subset (List.mem_cons_self y ys)
        have hxy2 : x ∈ ys := (List.mem_cons.mp hxmem).resolve_left hxy
        have hyx2 : y ∈ xs := (List.mem_cons.mp hymem).resolve_left
          (fun h => hxy h.symm)
        have h1 : countGe x y := List.rel_of_sorted_cons hs1 _ hyx2
        have h2 : countGe y x := List.rel_of_sorted_cons hs2 _ hxy2
        have hsnd : x.2 = y.2 := le_antisymm h2 h1
        rw [List.map_cons, List.nodup_cons] at hnd
        exact hnd.1 (hsnd ▸ List.mem_map_of_mem Prod.snd hyx2)

theorem counter_mem_of_same {α : Type} [DecidableEq α] (c1 c2 : Counter α)
    (h1 : NodupKeys c1) (hp1 : ∀ kv ∈ c1, 0 < kv.2)
    (hcnt : ∀ k, cntGet c1 k = cntGet c2 k) :
    ∀ kv, kv ∈ c1 → kv ∈ c2 := by
  intro kv hm
  have hv1 : alistGet? c1 kv.1 = some kv.2 :=
    alistGet?_eq_of_mem c1 kv.1 kv.2 h1 (by simpa using hm)
  have hc1 : cntGet c1 kv.1 = kv.2 := by rw [cntGet, hv1]; rfl
  have hpos : 0 < kv.2 := hp1 kv hm
  have hc2 : cntGet c2 kv.1 = kv.2 := by rw [← hcnt kv.1]; exact hc1
  cases hv2 : alistGet? c2 kv.1 with
  | none =>
    exfalso
    rw [cntGet, hv2] at hc2
    simp at hc2
    omega
  | some v =>
    have hveq : v = kv.2 := by
      rw [cntGet, hv2] at hc2
      simpa using hc2
    have hmem := mem_of_alistGet? c2 kv.1 v hv2
    rcases kv with ⟨a, b⟩
    rw [hveq] at hmem
    exact hmem

theorem counter_perm_of_same {α : Type} [DecidableEq α] (c1 c2 : Counter α)
    (h1 : NodupKeys c1) (h2 : NodupKeys c2)
    (hp1 : ∀ kv ∈ c1, 0 < kv.2) (hp2 : ∀ kv ∈ c2, 0 < kv.2)
    (hcnt : ∀ k, cntGet c1 k = cntGet c2 k) : List.Perm c1 c2 := by
  rw [List.perm_ext_iff_of_nodup (nodup_of_nodupKeys c1 h1)
    (nodup_of_nodupKeys c2 h2)]
  intro kv
  constructor
  · exact counter_mem_of_same c1 c2 h1 hp1 hcnt kv
  · exact counter_mem_of_same c2 c1 h2 hp2 (fun k => (hcnt k).symm) kv

/-- C2 (amended): the per-channel aggregated gram counts are invariant under
any permutation of the sample list (pure multiset sum); and whenever, per
channel, the aggregated counts are pairwise distinct (no ties), the selected
vocabulary itself is invariant under permutation of the samples.  (When counts
tie, most_common's insertion-order tie-break makes the selection depend on
sample order — see the counterexample.) -/
theorem select_global_ngrams_perm_invariant (l1 l2 : List RawNgrams)
    (hperm : List.Perm l1 l2)
    (hwf : ∀ s ∈ l1, WFRaw s)
    (hdist : ∀ pc ∈ aggregate l1, ((pc.2.map Prod.snd)).Nodup) :
    (∀ ch k, aggCnt l1 ch k = aggCnt l2 ch k) ∧
    (∀ ch, alistGet? (select_global_ngrams l1) ch =
      alistGet? (select_global_ngrams l2) ch) := by
  have hwf2 : ∀ s ∈ l2, WFRaw s := fun s hs => hwf s (hperm.mem_iff.mpr hs)
  have hagg : ∀ ch k, aggCnt l1 ch k = aggCnt l2 ch k := by
    intro ch k
    exact (hperm.map (fun s => sampleCnt s ch k)).sum_eq
  refine ⟨hagg, ?_⟩
  intro ch
  rw [alistGet?_select, alistGet?_select]
  by_cases hm : ch ∈ keyList (aggregate l1)
  · have hm2 : ch ∈ keyList (aggregate l2) := by
      rw [mem_keys_aggregate] at hm ⊢
      obtain ⟨s, hs, hks⟩ := hm
      exact ⟨s, hperm.mem_iff.mp hs, hks⟩
    obtain ⟨c1, hc1⟩ := alistGet?_isSome_of_mem_keys _ _ hm
    obtain ⟨c2, hc2⟩ := alistGet?_isSome_of_mem_keys _ _ hm2
    rw [hc1, hc2]
    have hmem1 : (ch, c1) ∈ aggregate l1 := mem_of_alistGet? _ _ _ hc1
    have hmem2 : (ch, c2) ∈ aggregate l2 := mem_of_alistGet? _ _ _ hc2
    have hgood1 := goodCounters_aggregate l1
    have hgood2 := goodCounters_aggregate l2
    have hcnt1 : ∀ k, cntGet c1 k = aggCnt l1 ch k := by
      intro k
      have := chanCnt_aggregate l1 hwf ch k
      rw [chanCnt, hc1] at this
      exact this
    have hcnt2 : ∀ k, cntGet c2 k = aggCnt l2 ch k := by
      intro k
      have := chanCnt_aggregate l2 hwf2 ch k
      rw [chanCnt, hc2] at this
      exact this
    have hcperm : List.Perm c1 c2 :=
      counter_perm_of_same c1 c2 ((hgood1 _ hmem1).1) ((hgood2 _ hmem2).1)
        ((hgood1 _ hmem1).2) ((hgood2 _ hmem2).2)
        (fun k => by rw [hcnt1 k, hagg ch k, ← hcnt2 k])
    have hsnd1 : (c1.map Prod.snd).Nodup := hdist (ch, c1) hmem1
    have hsorteq : List.insertionSort countGe c1 = List.insertionSort countGe c2 := by
      apply sorted_eq_of_perm_of_nodup_counts
      · exact (List.perm_insertionSort countGe c1).trans
          (hcperm.trans (List.perm_insertionSort countGe c2).symm)
      · exact List.sorted_insertionSort countGe c1
      · exact List.sorted_insertionSort countGe c2
      · exact ((List.perm_insertionSort countGe c1).map Prod.snd).nodup_iff.mpr hsnd1
    have hts : List.take (topNFor ch) (List.insertionSort countGe c1) =
        List.take (topNFor ch) (List.insertionSort countGe c2) := by rw [hsorteq]
    show some (List.map Prod.fst (List.take (topNFor ch)
        (List.insertionSort countGe c1))) =
      some (List.map Prod.fst (List.take (topNFor ch)
        (List.insertionSort countGe c2)))
    rw [hts]
  · have hm2 : ch ∉ keyList (aggregate l2) := by
      rw [mem_keys_aggregate] at hm ⊢
      intro hc
      obtain ⟨s, hs, hks⟩ := hc
      exact hm ⟨s, hperm.mem_iff.mpr hs, hks⟩
    rw [(alistGet?_eq_none_iff _ _).mpr hm, (alistGet?_eq_none_iff _ _).mpr hm2]

theorem select_global_ngrams_perm_invariant_witness :
    alistGet? (select_global_ngrams
      [[("ng2", ([("A", 3)], 3))], [("ng2", ([("B", 1)], 1))]]) "ng2" =
    alistGet? (select_global_ngrams
      [[("ng2", ([("B", 1)], 1))], [("ng2", ([("A", 3)], 3))]]) "ng2" :=
  (select_global_ngrams_perm_invariant
    [[("ng2", ([("A", 3)], 3))], [("ng2", ([("B", 1)], 1))]]
    [[("ng2", ([("B", 1)], 1))], [("ng2", ([("A", 3)], 3))]]
    (List.Perm.swap _ _ []) (by decide) (by decide)).2 "ng2"

end Barcode
